import Mathlib

/-!
Verification of the branch-and-bound driver for unconstrained binary quadratic
optimization found in Fusion/BinaryQuadratic-SDP/binquad.ipynb.

The notebook code is a Python loop (solveBB) manipulating numpy arrays and a
heapq priority queue.  We embed it shallowly:

* matrices are lists of rows of rationals, vectors are lists of rationals;
  numpy floats become exact rationals;
* np.delete on a vector is List.eraseIdx, np.delete on a matrix along axis 0
  is List.eraseIdx on the row list, along axis 1 is List.eraseIdx mapped over
  the rows; QT[:,pivot] is the pivot entry of each row;
* the heapq priority queue (keyed by the tuple (objective, sequence number))
  is a list together with a pop-minimum operation;
* the external MOSEK relaxation solve is an opaque oracle parameter returning
  an optional (objective, fractional solution, branch index);
* the loop is a fuel-indexed recursion on an explicit search state.

For the algebraic reduction identity we additionally embed the reduction
formulas over functions on Fin, where deleting the pivot row/column of Q is
composition with Fin.succAbove and the pivot column with the pivot entry
removed is evaluation at the pivot after composing the row index with
Fin.succAbove.  This is the same source code (binquad.ipynb lines defining
QT, Q0, QZ, PT, P0, R0) read as operations on total functions.
-/

namespace BinQuad

/-! ## Fin-function embedding of the objective and the reduction formulas -/

/-- The objective x^T Q x + P^T x + R of the binary quadratic problem,
over functions on Fin.  x^T Q x is the double sum of Q i j * x i * x j. -/
def objF {n : ℕ} (Q : Fin n → Fin n → ℚ) (P : Fin n → ℚ) (R : ℚ)
    (x : Fin n → ℚ) : ℚ :=
  (∑ i, ∑ j, Q i j * x i * x j) + (∑ i, P i * x i) + R

/-- Q0 = np.delete(np.delete(Q, pivot, axis=0), pivot, axis=1):
Q with the pivot row and column removed, i.e. Q composed with succAbove. -/
def Q0F {n : ℕ} (Q : Fin (n + 1) → Fin (n + 1) → ℚ) (p : Fin (n + 1)) :
    Fin n → Fin n → ℚ :=
  fun i j => Q (p.succAbove i) (p.succAbove j)

/-- QZ = QT[:, pivot]: the pivot column of Q with the pivot entry removed. -/
def QZF {n : ℕ} (Q : Fin (n + 1) → Fin (n + 1) → ℚ) (p : Fin (n + 1)) :
    Fin n → ℚ :=
  fun i => Q (p.succAbove i) p

/-- P0 = np.delete(P, pivot) + 2 * val * QZ. -/
def P0F {n : ℕ} (Q : Fin (n + 1) → Fin (n + 1) → ℚ) (P : Fin (n + 1) → ℚ)
    (p : Fin (n + 1)) (v : ℚ) : Fin n → ℚ :=
  fun i => P (p.succAbove i) + 2 * v * QZF Q p i

/-- R0 = val * Q[pivot, pivot] + val * P[pivot] + R. -/
def R0F {n : ℕ} (Q : Fin (n + 1) → Fin (n + 1) → ℚ) (P : Fin (n + 1) → ℚ)
    (R : ℚ) (p : Fin (n + 1)) (v : ℚ) : ℚ :=
  v * Q p p + v * P p + R

/-! ## List embedding of the data and of the solveBB loop -/

/-- Vectors (numpy 1-d arrays of floats) as lists of rationals. -/
abbrev Vec := List ℚ

/-- Matrices (numpy 2-d arrays) as lists of rows. -/
abbrev Mat := List (List ℚ)

/-- Entry Q[i, j], with 0 as the out-of-range default. -/
def entry (Q : Mat) (i j : ℕ) : ℚ := (Q.getD i []).getD j 0

/-- Dot product of two vectors (truncating at the shorter one, as zipWith). -/
def dotVec (a b : Vec) : ℚ := (List.zipWith (· * ·) a b).sum

/-- x^T Q x as the sum over rows i of x i * (row i · x). -/
def quadForm (Q : Mat) (x : Vec) : ℚ :=
  (List.zipWith (fun xi row => xi * dotVec row x) x Q).sum

/-- The original objective x^T Q x + P^T x + R on list data. -/
def objective (Q : Mat) (P : Vec) (R : ℚ) (x : Vec) : ℚ :=
  quadForm Q x + dotVec P x + R

/-- A search node: exactly the tuple
(obj, seq, Q, P, R, curr, idxmap, pivot) pushed on the heap by solveBB,
where seq is the relaxation counter used as deterministic tie-break. -/
structure Node where
  obj : ℚ
  seq : ℕ
  Q : Mat
  P : Vec
  R : ℚ
  curr : Vec
  idxmap : List ℕ
  pivot : ℕ
deriving DecidableEq, Repr

/-- The reduced data of one child (the per-val block of the solveBB loop). -/
structure CD where
  Q : Mat
  P : Vec
  R : ℚ
  curr : Vec
  idxmap : List ℕ
deriving DecidableEq, Repr

/-- The per-val block of solveBB building the reduced child data:
  idxmap0     = np.delete(idxmap, pivot)
  curr0       = np.copy(curr); curr0[pidx] = val   (pidx = idxmap[pivot])
  QT = np.delete(Q, pivot, axis=0); Q0 = np.delete(QT, pivot, axis=1)
  QZ = QT[:, pivot]
  PT = np.delete(P, pivot);  P0 = PT + 2 * val * QZ
  R0 = val * Q[pivot, pivot] + val * P[pivot] + R -/
def makeChild (node : Node) (val : ℚ) : CD :=
  let pidx := node.idxmap.getD node.pivot 0
  let idxmap0 := node.idxmap.eraseIdx node.pivot
  let curr0 := node.curr.set pidx val
  let QT := node.Q.eraseIdx node.pivot
  let Q0 := QT.map (fun row => row.eraseIdx node.pivot)
  let QZ := QT.map (fun row => row.getD node.pivot 0)
  let PT := node.P.eraseIdx node.pivot
  let P0 := List.zipWith (fun a b => a + 2 * val * b) PT QZ
  let R0 := val * entry node.Q node.pivot node.pivot +
    val * node.P.getD node.pivot 0 + node.R
  ⟨Q0, P0, R0, curr0, idxmap0⟩

/-- What the external relaxation solve returns: the relaxed objective, the
fractional solution of the reduced problem, and the branch index (the entry
of the fractional solution closest to 1/2).  none models a solver failure. -/
structure OracleResult where
  obj : ℚ
  frac : Vec
  pivot : ℕ
deriving DecidableEq, Repr

/-- The external relaxation oracle (the MOSEK fusionSDP solve): an opaque
function of the reduced data. -/
abbrev Oracle := Mat → Vec → ℚ → Vec → List ℕ → Option OracleResult

/-- Apply the oracle to child data. -/
def callOracle (oracle : Oracle) (d : CD) : Option OracleResult :=
  oracle d.Q d.P d.R d.curr d.idxmap

/-- The mutable solver state: the active node queue, the global bounds lb
and ub, the incumbent assignment achieving ub, and the relaxation counter. -/
structure BB where
  active : List Node
  lb : ℚ
  ub : ℚ
  incumbent : Vec
  relSolved : ℕ
deriving DecidableEq, Repr

/-- Modelled from the spec: the incumbent update rounds the fractional
solution entrywise with threshold 1/2 ("round its fractional solution to the
nearest 0-1 vector, entrywise threshold at 0.5").  The rounding method
itself is not in the notebook fragment. -/
def roundHalf (x : Vec) : Vec :=
  x.map (fun t => if (1 : ℚ) / 2 ≤ t then 1 else 0)

/-- Modelled from the spec: expand the fixed variables of a node with the
rounded free entries — position idxmap[k] of the full-length assignment
receives entry k of the rounded fractional solution.  This full-assignment
construction is part of the solveRelaxation method, not in the fragment. -/
def embedFree (curr : Vec) (idxmap : List ℕ) (vals : Vec) : Vec :=
  (idxmap.zip vals).foldl (fun c pv => c.set pv.1 pv.2) curr

/-- Modelled from the spec: "evaluate the original problem's objective at
this rounded, fully-assigned vector ... and if it improves upper_bound,
replace incumbent / upper_bound".  Not in the notebook fragment. -/
def updateIncumbent (Qo : Mat) (Po : Vec) (Ro : ℚ) (cand : Vec) (s : BB) :
    BB :=
  if objective Qo Po Ro cand < s.ub then
    { s with ub := objective Qo Po Ro cand, incumbent := cand }
  else s

/-- Modelled from the spec: the solveRelaxation method.  It calls the
external oracle on the reduced data, counts the relaxation, and on success
performs the rounding-based incumbent update and returns the objective and
the next branch index.  On failure (oracle non-convergence / infeasibility)
it returns none and "the offending node is discarded without contributing a
bound".  Only the call site of solveRelaxation is in the fragment. -/
def solveRelaxation (oracle : Oracle) (Qo : Mat) (Po : Vec) (Ro : ℚ)
    (d : CD) (s : BB) : Option (ℚ × ℕ) × BB :=
  match callOracle oracle d with
  | none => (none, { s with relSolved := s.relSolved + 1 })
  | some r =>
    (some (r.obj, r.pivot),
      updateIncumbent Qo Po Ro (embedFree d.curr d.idxmap (roundHalf r.frac))
        { s with relSolved := s.relSolved + 1 })

/-- One iteration of the for-val loop of solveBB: build the child data,
solve its relaxation, and on success push the child node
(obj0, relSolved, Q0, P0, R0, curr0, idxmap0, pivot0) onto the queue. -/
def expandOne (oracle : Oracle) (Qo : Mat) (Po : Vec) (Ro : ℚ) (node : Node)
    (val : ℚ) (s : BB) : BB :=
  let d := makeChild node val
  match solveRelaxation oracle Qo Po Ro d s with
  | (none, s1) => s1
  | (some (obj0, pivot0), s1) =>
    { s1 with active := s1.active ++
        [⟨obj0, s.relSolved + 1, d.Q, d.P, d.R, d.curr, d.idxmap, pivot0⟩] }

/-- The for-val-in-[0,1] loop of solveBB: first val = 0, then val = 1. -/
def expandNode (oracle : Oracle) (Qo : Mat) (Po : Vec) (Ro : ℚ)
    (node : Node) (s : BB) : BB :=
  expandOne oracle Qo Po Ro node 1 (expandOne oracle Qo Po Ro node 0 s)

/-- The node pushed for a child: the reduced data of makeChild together with
the oracle's objective and branch index and the given sequence number. -/
def childNode (node : Node) (val : ℚ) (r : OracleResult) (seq : ℕ) : Node :=
  let d := makeChild node val
  ⟨r.obj, seq, d.Q, d.P, d.R, d.curr, d.idxmap, r.pivot⟩

/-- The heap order on nodes: heapq compares the pushed tuples
lexicographically, so (objective, sequence number) decides the order
(sequence numbers are distinct, so later components never matter). -/
def keyLE (a b : Node) : Prop :=
  a.obj < b.obj ∨ (a.obj = b.obj ∧ a.seq ≤ b.seq)

instance (a b : Node) : Decidable (keyLE a b) := by
  unfold keyLE; infer_instance

/-- heapq.heappop: remove and return the minimum node of the queue under
the (objective, sequence number) order. -/
def popMin : List Node → Option (Node × List Node)
  | [] => none
  | a :: t =>
    match popMin t with
    | none => some (a, [])
    | some (m, r) => if keyLE a m then some (a, t) else some (m, a :: r)

/-- The gap termination test of solveBB: lb >= ub - gaptol. -/
def gapTest (gaptol lb ub : ℚ) : Bool := decide (ub - gaptol ≤ lb)

/-- The integer-rounded termination test of the BiqMac variant:
np.ceil(lb) >= ub. -/
def ceilTest (lb ub : ℚ) : Bool := decide (ub ≤ (⌈lb⌉ : ℚ))

/-- How a run of the loop ended: via the termination test (which clears the
queue), via the queue becoming empty, or by running out of fuel. -/
inductive ExitKind where
  | gapExit
  | emptyExit
  | fuelOut
deriving DecidableEq, Repr

/-- The node-processing loop of solveBB, fuel-indexed.  Each iteration pops
the minimum node, sets lb to its objective, stops (clearing the queue) if
the termination test tstop lb ub holds, discards the node if its reduced
dimension len(P) <= 1, and otherwise expands it into two children.  The
stats() call of the source only prints progress and has no effect on the
state, so it has no counterpart here. -/
def solveBB (oracle : Oracle) (Qo : Mat) (Po : Vec) (Ro : ℚ)
    (tstop : ℚ → ℚ → Bool) : ℕ → BB → BB × ExitKind
  | 0, s => (s, .fuelOut)
  | fuel + 1, s =>
    match popMin s.active with
    | none => (s, .emptyExit)
    | some (node, rest) =>
      let s1 : BB := { s with active := rest, lb := node.obj }
      if tstop s1.lb s1.ub then ({ s1 with active := [] }, .gapExit)
      else if node.P.length ≤ 1 then solveBB oracle Qo Po Ro tstop fuel s1
      else solveBB oracle Qo Po Ro tstop fuel
        (expandNode oracle Qo Po Ro node s1)

/-- The trace of objective values popped by solveBB, in order: the
successive values taken by lb during the run. -/
def runTrace (oracle : Oracle) (Qo : Mat) (Po : Vec) (Ro : ℚ)
    (tstop : ℚ → ℚ → Bool) : ℕ → BB → List ℚ
  | 0, _ => []
  | fuel + 1, s =>
    match popMin s.active with
    | none => []
    | some (node, rest) =>
      let s1 : BB := { s with active := rest, lb := node.obj }
      if tstop s1.lb s1.ub then [node.obj]
      else if node.P.length ≤ 1 then
        node.obj :: runTrace oracle Qo Po Ro tstop fuel s1
      else
        node.obj :: runTrace oracle Qo Po Ro tstop fuel
          (expandNode oracle Qo Po Ro node s1)

/-! ## Specification-side notions used to state the claims -/

/-- A feasible point of the original problem: all entries in {0, 1}. -/
def FeasibleVec (x : Vec) : Prop := ∀ t ∈ x, t = 0 ∨ t = 1

/-- All binary vectors of length n. -/
def binVecs : ℕ → List Vec
  | 0 => [[]]
  | n + 1 =>
    (binVecs n).map (fun v => 0 :: v) ++ (binVecs n).map (fun v => 1 :: v)

/-- Minimum of a list of rationals (0 for the empty list). -/
def minList : List ℚ → ℚ
  | [] => 0
  | a :: t => t.foldl min a

/-- The brute-force optimum min over x in {0,1}^n of the objective. -/
def bruteMin (Q : Mat) (P : Vec) (R : ℚ) (n : ℕ) : ℚ :=
  minList ((binVecs n).map (objective Q P R))

/-- A rational that is an integer. -/
def IsInt (q : ℚ) : Prop := q.den = 1

instance (q : ℚ) : Decidable (IsInt q) := by
  unfold IsInt; infer_instance

instance (x : Vec) : Decidable (FeasibleVec x) := by
  unfold FeasibleVec; infer_instance

/-- All entries of a vector are integers. -/
def IntVec (P : Vec) : Prop := ∀ q ∈ P, IsInt q

instance (P : Vec) : Decidable (IntVec P) := by
  unfold IntVec; infer_instance

/-- All entries of a matrix are integers. -/
def IntMat (Q : Mat) : Prop := ∀ row ∈ Q, ∀ q ∈ row, IsInt q

instance (Q : Mat) : Decidable (IntMat Q) := by
  unfold IntMat; infer_instance

/-- Well-formedness of a node of an n-variable problem: idxmap is
duplicate-free with entries below n and its length equals the reduced
dimension (the length of P, the number of rows of Q and the length of every
row); curr has full length n and is 0/1 at every original index already
eliminated (i.e. not in idxmap); the stored branch index is in range unless
the node is terminal. -/
def NodeOK (n : ℕ) (node : Node) : Prop :=
  node.idxmap.Nodup ∧
  (∀ i ∈ node.idxmap, i < n) ∧
  node.idxmap.length = node.P.length ∧
  node.Q.length = node.P.length ∧
  (∀ row ∈ node.Q, row.length = node.P.length) ∧
  node.curr.length = n ∧
  (∀ j < n, j ∉ node.idxmap →
    node.curr.getD j 0 = 0 ∨ node.curr.getD j 0 = 1) ∧
  (node.pivot < node.P.length ∨ node.P.length ≤ 1)

instance (n : ℕ) (node : Node) : Decidable (NodeOK n node) := by
  unfold NodeOK; infer_instance

/-- Every node of the active queue is well-formed. -/
def QueueOK (n : ℕ) (s : BB) : Prop := ∀ x ∈ s.active, NodeOK n x

instance (n : ℕ) (s : BB) : Decidable (QueueOK n s) := by
  unfold QueueOK; infer_instance

/-- The incumbent invariant: the incumbent is a feasible full-length
assignment and ub is its original objective value. -/
def StInv (n : ℕ) (Qo : Mat) (Po : Vec) (Ro : ℚ) (s : BB) : Prop :=
  FeasibleVec s.incumbent ∧ s.incumbent.length = n ∧
  objective Qo Po Ro s.incumbent = s.ub

/-- The oracle always reports a branch index within the reduced dimension
(the index of the fractional entry closest to 1/2). -/
def OraclePivotLt (oracle : Oracle) : Prop :=
  ∀ Q P R c im r, oracle Q P R c im = some r → r.pivot < P.length

/-- The oracle's fractional solution has the reduced dimension. -/
def OracleFracLen (oracle : Oracle) : Prop :=
  ∀ Q P R c im r, oracle Q P R c im = some r → r.frac.length = P.length

/-- The reduced data stored in a node, i.e. the data the oracle was given
when the node's relaxation was solved: the fields (Q, P, R, curr, idxmap)
of the heap tuple. -/
def nodeCD (node : Node) : CD :=
  ⟨node.Q, node.P, node.R, node.curr, node.idxmap⟩

/-- A node whose objective is the oracle's own objective on the node's
data.  Every node the loop enqueues satisfies this: a child is pushed with
exactly the objective the oracle returned on that child's reduced data,
and the root is pushed with the root relaxation value. -/
def NodeSolved (oracle : Oracle) (node : Node) : Prop :=
  ∃ r, callOracle oracle (nodeCD node) = some r ∧ node.obj = r.obj

/-- The convex-relaxation guarantee of the oracle: fixing one more
variable can only raise the relaxed optimum.  It is stated on real
parents only — the parent's objective is constrained to be the oracle's
own answer rp on the parent's data — so: if the oracle answered rp on a
node's data and answers rc on the reduced data of one of its children,
the child's objective rc.obj is at least the parent's. -/
def OracleMono (oracle : Oracle) : Prop :=
  ∀ (node : Node) (val : ℚ) (rp rc : OracleResult),
    callOracle oracle (nodeCD node) = some rp → node.obj = rp.obj →
    callOracle oracle (makeChild node val) = some rc → node.obj ≤ rc.obj

/-- The termination measure of the loop: each node weighs 3^(reduced dim). -/
def nodeMeas (node : Node) : ℕ := 3 ^ node.P.length

/-- The termination measure of a state: total weight of the active queue. -/
def meas (s : BB) : ℕ := (s.active.map nodeMeas).sum

/-! ## Helper lemmas on lists -/

theorem perm_getD_eraseIdx {α : Type} (l : List α) (i : ℕ) (d : α)
    (h : i < l.length) : l.Perm (l.getD i d :: l.eraseIdx i) := by
  induction l generalizing i with
  | nil => simp at h
  | cons a t ih =>
    cases i with
    | zero => simp [List.getD]
    | succ i =>
      have h' : i < t.length := by simpa using h
      have hp := (ih i h').cons a
      have hsw : (a :: t.getD i d :: t.eraseIdx i).Perm
          (t.getD i d :: a :: t.eraseIdx i) := List.Perm.swap _ _ _
      have : List.getD (a :: t) (i + 1) d = t.getD i d := by
        simp [List.getD]
      rw [List.eraseIdx_cons_succ, this]
      exact hp.trans hsw

theorem length_eraseIdx_lt {α : Type} (l : List α) (i : ℕ)
    (h : i < l.length) : (l.eraseIdx i).length = l.length - 1 := by
  induction l generalizing i with
  | nil => simp at h
  | cons a t ih =>
    cases i with
    | zero => simp
    | succ i =>
      have h' : i < t.length := by simpa using h
      simp [List.eraseIdx_cons_succ, ih i h']
      omega

theorem eraseIdx_subset {α : Type} (l : List α) (i : ℕ) :
    ∀ x ∈ l.eraseIdx i, x ∈ l := fun _ hx =>
  (List.eraseIdx_sublist l i).mem hx

theorem nodup_eraseIdx {α : Type} (l : List α) (i : ℕ) (h : l.Nodup) :
    (l.eraseIdx i).Nodup := (List.eraseIdx_sublist l i).nodup h

theorem mem_of_not_mem_eraseIdx {α : Type} [DecidableEq α] (l : List α)
    (i : ℕ) (d : α) (hi : i < l.length) (x : α) (hx : x ∈ l)
    (hne : x ∉ l.eraseIdx i) : x = l.getD i d := by
  have hperm := perm_getD_eraseIdx l i d hi
  have := hperm.mem_iff.mp hx
  simp at this
  rcases this with h | h
  · rw [h, List.getD, List.get?_eq_getElem?]
  · exact absurd h hne

theorem getD_set_self (l : Vec) (i : ℕ) (v d : ℚ) (h : i < l.length) :
    (l.set i v).getD i d = v := by
  induction l generalizing i with
  | nil => simp at h
  | cons a t ih =>
    cases i with
    | zero => simp [List.getD]
    | succ i =>
      have h' : i < t.length := by simpa using h
      simpa [List.getD] using ih i h'

theorem getD_set_ne (l : Vec) (i j : ℕ) (v d : ℚ) (h : j ≠ i) :
    (l.set i v).getD j d = l.getD j d := by
  induction l generalizing i j with
  | nil => simp
  | cons a t ih =>
    cases i with
    | zero =>
      cases j with
      | zero => exact absurd rfl h
      | succ j => simp [List.getD]
    | succ i =>
      cases j with
      | zero => simp [List.getD]
      | succ j =>
        have h' : j ≠ i := fun hc => h (by rw [hc])
        simpa [List.getD] using ih i j h'

theorem getD_mem (l : List ℕ) (i : ℕ) (d : ℕ) (h : i < l.length) :
    l.getD i d ∈ l := by
  induction l generalizing i with
  | nil => simp at h
  | cons a t ih =>
    cases i with
    | zero => simp [List.getD]
    | succ i =>
      have h' : i < t.length := by simpa using h
      simp [List.getD]
      right
      simpa [List.getD] using ih i h'

/-! ## Helper lemmas on the heap order and popMin -/

theorem keyLE_obj_le {a b : Node} (h : keyLE a b) : a.obj ≤ b.obj := by
  rcases h with h | ⟨h, _⟩
  · exact le_of_lt h
  · exact le_of_eq h

theorem not_keyLE_obj_le {a b : Node} (h : ¬ keyLE a b) : b.obj ≤ a.obj := by
  unfold keyLE at h
  push_neg at h
  exact h.1

theorem popMin_eq_none {l : List Node} (h : popMin l = none) : l = [] := by
  cases l with
  | nil => rfl
  | cons a t =>
    exfalso
    cases hpm : popMin t with
    | none => simp [popMin, hpm] at h
    | some p =>
      obtain ⟨m, r⟩ := p
      by_cases hk : keyLE a m <;> simp [popMin, hpm, hk] at h

theorem popMin_perm {l : List Node} {nd : Node} {r : List Node}
    (h : popMin l = some (nd, r)) : l.Perm (nd :: r) := by
  induction l generalizing nd r with
  | nil => simp [popMin] at h
  | cons a t ih =>
    cases hpm : popMin t with
    | none =>
      have ht : t = [] := popMin_eq_none hpm
      subst ht
      simp [popMin] at h
      obtain ⟨h1, h2⟩ := h
      subst h1; subst h2
      exact List.Perm.refl _
    | some p =>
      obtain ⟨m, rr⟩ := p
      by_cases hk : keyLE a m
      · simp [popMin, hpm, hk] at h
        obtain ⟨h1, h2⟩ := h
        subst h1; subst h2
        exact List.Perm.refl _
      · simp [popMin, hpm, hk] at h
        obtain ⟨h1, h2⟩ := h
        subst h1; subst h2
        exact ((ih hpm).cons a).trans (List.Perm.swap _ _ _)

theorem popMin_mem {l : List Node} {nd : Node} {r : List Node}
    (h : popMin l = some (nd, r)) : nd ∈ l :=
  (popMin_perm h).symm.subset (List.mem_cons_self _ _)

theorem popMin_rest_subset {l : List Node} {nd : Node} {r : List Node}
    (h : popMin l = some (nd, r)) : ∀ x ∈ r, x ∈ l := fun _ hx =>
  (popMin_perm h).symm.subset (List.mem_cons_of_mem _ hx)

theorem popMin_le {l : List Node} {nd : Node} {r : List Node}
    (h : popMin l = some (nd, r)) : ∀ x ∈ l, nd.obj ≤ x.obj := by
  induction l generalizing nd r with
  | nil => simp [popMin] at h
  | cons a t ih =>
    cases hpm : popMin t with
    | none =>
      have ht : t = [] := popMin_eq_none hpm
      subst ht
      simp [popMin] at h
      obtain ⟨h1, _⟩ := h
      subst h1
      intro x hx
      simp at hx
      subst hx
      exact le_refl _
    | some p =>
      obtain ⟨m, rr⟩ := p
      by_cases hk : keyLE a m
      · simp [popMin, hpm, hk] at h
        obtain ⟨h1, _⟩ := h
        subst h1
        intro x hx
        rcases List.mem_cons.mp hx with hx | hx
        · subst hx; exact le_refl _
        · exact le_trans (keyLE_obj_le hk) (ih hpm x hx)
      · simp [popMin, hpm, hk] at h
        obtain ⟨h1, _⟩ := h
        subst h1
        intro x hx
        rcases List.mem_cons.mp hx with hx | hx
        · subst hx; exact not_keyLE_obj_le hk
        · exact ih hpm x hx

/-! ## Claim C1: reduction correctness -/

/-- C1.  Reduction correctness: for every symmetric Q, vector P, scalar R,
pivot p and value v in {0,1}, the reduced data (Q0, P0, R0) built by the
expansion step satisfies, for every assignment y of the remaining
variables, R0 + y^T Q0 y + P0^T y = x^T Q x + P^T x + R where x is y with
v inserted at position p. -/
theorem binquad_C1 {n : ℕ} (Q : Fin (n + 1) → Fin (n + 1) → ℚ)
    (P : Fin (n + 1) → ℚ) (R : ℚ) (p : Fin (n + 1)) (v : ℚ)
    (hsym : ∀ i j, Q i j = Q j i) (hv : v = 0 ∨ v = 1) (y : Fin n → ℚ) :
    objF (Q0F Q p) (P0F Q P p v) (R0F Q P R p v) y =
      objF Q P R (p.insertNth v y) := by
  have hvv : v * v = v := by rcases hv with h | h <;> subst h <;> ring
  set x : Fin (n + 1) → ℚ := p.insertNth v y with hx
  have hx0 : x p = v := by simp [hx]
  have hxs : ∀ i, x (p.succAbove i) = y i := by
    intro i; simp [hx]
  have h1 : (∑ i, ∑ j, Q i j * x i * x j) =
      (∑ j, Q p j * x p * x j) +
        ∑ i, ∑ j, Q (p.succAbove i) j * x (p.succAbove i) * x j :=
    Fin.sum_univ_succAbove (fun i => ∑ j, Q i j * x i * x j) p
  have h2 : (∑ j, Q p j * x p * x j) =
      Q p p * x p * x p + ∑ j, Q p (p.succAbove j) * x p * x (p.succAbove j) :=
    Fin.sum_univ_succAbove (fun j => Q p j * x p * x j) p
  have h3 : ∀ i, (∑ j, Q (p.succAbove i) j * x (p.succAbove i) * x j) =
      Q (p.succAbove i) p * x (p.succAbove i) * x p +
        ∑ j, Q (p.succAbove i) (p.succAbove j) * x (p.succAbove i) *
          x (p.succAbove j) := fun i =>
    Fin.sum_univ_succAbove
      (fun j => Q (p.succAbove i) j * x (p.succAbove i) * x j) p
  have h4 : (∑ i, P i * x i) =
      P p * x p + ∑ i, P (p.succAbove i) * x (p.succAbove i) :=
    Fin.sum_univ_succAbove (fun i => P i * x i) p
  have hsum3 : (∑ i, ∑ j, Q (p.succAbove i) j * x (p.succAbove i) * x j) =
      (∑ i, Q (p.succAbove i) p * y i * v) +
        ∑ i, ∑ j, Q (p.succAbove i) (p.succAbove j) * y i * y j := by
    rw [← Finset.sum_add_distrib]
    refine Finset.sum_congr rfl fun i _ => ?_
    rw [h3 i, hxs, hx0]
    congr 1
    refine Finset.sum_congr rfl fun j _ => by rw [hxs]
  have hswap : (∑ j, Q p (p.succAbove j) * v * y j) =
      ∑ j, Q (p.succAbove j) p * v * y j :=
    Finset.sum_congr rfl fun j _ => by rw [hsym p (p.succAbove j)]
  simp only [objF, Q0F, P0F, QZF, R0F]
  rw [h1, h2, h4, hsum3, hx0]
  simp only [hxs]
  have hexp : (∑ i, (P (p.succAbove i) + 2 * v * Q (p.succAbove i) p) * y i) =
      (∑ i, P (p.succAbove i) * y i) +
        ∑ i, 2 * v * Q (p.succAbove i) p * y i := by
    rw [← Finset.sum_add_distrib]
    exact Finset.sum_congr rfl fun i _ => by ring
  rw [hexp]
  have hA : (∑ j, Q p (p.succAbove j) * v * y j) =
      ∑ i, Q (p.succAbove i) p * y i * v := by
    rw [hswap]
    exact Finset.sum_congr rfl fun j _ => by ring
  have hB : (∑ i, 2 * v * Q (p.succAbove i) p * y i) =
      (∑ i, Q (p.succAbove i) p * y i * v) +
        ∑ i, Q (p.succAbove i) p * y i * v := by
    rw [← Finset.sum_add_distrib]
    exact Finset.sum_congr rfl fun i _ => by ring
  rw [hB, ← hA]
  have hvv2 : v ^ 2 = v := by rw [pow_two, hvv]
  ring_nf
  rw [hvv2]
  ring

/-- Witness for C1 at a concrete symmetric 2x2 matrix, pivot 0, v = 1. -/
theorem binquad_C1_witness :
    (∀ i j : Fin 2, (![![(1 : ℚ), 2], ![2, 3]]) i j =
      (![![(1 : ℚ), 2], ![2, 3]]) j i) ∧
    ((1 : ℚ) = 0 ∨ (1 : ℚ) = 1) ∧
    objF (Q0F ![![(1 : ℚ), 2], ![2, 3]] 0)
        (P0F ![![(1 : ℚ), 2], ![2, 3]] ![4, 5] 0 1)
        (R0F ![![(1 : ℚ), 2], ![2, 3]] ![4, 5] 6 0 1) ![7] =
      objF ![![(1 : ℚ), 2], ![2, 3]] ![4, 5] 6
        ((0 : Fin 2).insertNth 1 ![7]) :=
  ⟨by decide, Or.inr rfl,
    binquad_C1 ![![(1 : ℚ), 2], ![2, 3]] ![4, 5] 6 0 1 (by decide)
      (Or.inr rfl) ![7]⟩

/-! ## Characterization lemmas for the expansion step -/

theorem updateIncumbent_active (Qo : Mat) (Po : Vec) (Ro : ℚ) (c : Vec)
    (s : BB) : (updateIncumbent Qo Po Ro c s).active = s.active := by
  unfold updateIncumbent; split <;> rfl

theorem updateIncumbent_lb (Qo : Mat) (Po : Vec) (Ro : ℚ) (c : Vec)
    (s : BB) : (updateIncumbent Qo Po Ro c s).lb = s.lb := by
  unfold updateIncumbent; split <;> rfl

theorem updateIncumbent_relSolved (Qo : Mat) (Po : Vec) (Ro : ℚ) (c : Vec)
    (s : BB) : (updateIncumbent Qo Po Ro c s).relSolved = s.relSolved := by
  unfold updateIncumbent; split <;> rfl

theorem updateIncumbent_ub_le (Qo : Mat) (Po : Vec) (Ro : ℚ) (c : Vec)
    (s : BB) : (updateIncumbent Qo Po Ro c s).ub ≤ s.ub := by
  unfold updateIncumbent; split
  · exact le_of_lt (by assumption)
  · exact le_refl _

theorem expandOne_fail (oracle : Oracle) (Qo : Mat) (Po : Vec) (Ro : ℚ)
    (node : Node) (val : ℚ) (s : BB)
    (h : callOracle oracle (makeChild node val) = none) :
    expandOne oracle Qo Po Ro node val s =
      { s with relSolved := s.relSolved + 1 } := by
  simp [expandOne, solveRelaxation, h]

theorem expandOne_succ (oracle : Oracle) (Qo : Mat) (Po : Vec) (Ro : ℚ)
    (node : Node) (val : ℚ) (s : BB) (r : OracleResult)
    (h : callOracle oracle (makeChild node val) = some r) :
    expandOne oracle Qo Po Ro node val s =
      { updateIncumbent Qo Po Ro
          (embedFree (makeChild node val).curr (makeChild node val).idxmap
            (roundHalf r.frac)) { s with relSolved := s.relSolved + 1 } with
        active := (updateIncumbent Qo Po Ro
          (embedFree (makeChild node val).curr (makeChild node val).idxmap
            (roundHalf r.frac))
            { s with relSolved := s.relSolved + 1 }).active ++
          [childNode node val r (s.relSolved + 1)] } := by
  simp [expandOne, solveRelaxation, h, childNode]

theorem expandOne_lb (oracle : Oracle) (Qo : Mat) (Po : Vec) (Ro : ℚ)
    (node : Node) (val : ℚ) (s : BB) :
    (expandOne oracle Qo Po Ro node val s).lb = s.lb := by
  cases h : callOracle oracle (makeChild node val) with
  | none => rw [expandOne_fail oracle Qo Po Ro node val s h]
  | some r =>
    rw [expandOne_succ oracle Qo Po Ro node val s r h]
    exact updateIncumbent_lb _ _ _ _ _

theorem expandOne_relSolved (oracle : Oracle) (Qo : Mat) (Po : Vec) (Ro : ℚ)
    (node : Node) (val : ℚ) (s : BB) :
    (expandOne oracle Qo Po Ro node val s).relSolved = s.relSolved + 1 := by
  cases h : callOracle oracle (makeChild node val) with
  | none => rw [expandOne_fail oracle Qo Po Ro node val s h]
  | some r =>
    rw [expandOne_succ oracle Qo Po Ro node val s r h]
    exact updateIncumbent_relSolved _ _ _ _ _

theorem expandOne_ub_le (oracle : Oracle) (Qo : Mat) (Po : Vec) (Ro : ℚ)
    (node : Node) (val : ℚ) (s : BB) :
    (expandOne oracle Qo Po Ro node val s).ub ≤ s.ub := by
  cases h : callOracle oracle (makeChild node val) with
  | none => rw [expandOne_fail oracle Qo Po Ro node val s h]
  | some r =>
    rw [expandOne_succ oracle Qo Po Ro node val s r h]
    exact updateIncumbent_ub_le _ _ _ _ _

theorem expandOne_mem_active (oracle : Oracle) (Qo : Mat) (Po : Vec)
    (Ro : ℚ) (node : Node) (val : ℚ) (s : BB) (x : Node)
    (hx : x ∈ (expandOne oracle Qo Po Ro node val s).active) :
    x ∈ s.active ∨ ∃ r, callOracle oracle (makeChild node val) = some r ∧
      x = childNode node val r (s.relSolved + 1) := by
  cases h : callOracle oracle (makeChild node val) with
  | none =>
    rw [expandOne_fail oracle Qo Po Ro node val s h] at hx
    exact Or.inl hx
  | some r =>
    rw [expandOne_succ oracle Qo Po Ro node val s r h] at hx
    simp only [updateIncumbent_active] at hx
    rcases List.mem_append.mp hx with hx | hx
    · exact Or.inl hx
    · simp at hx
      exact Or.inr ⟨r, h ▸ rfl, hx⟩

theorem expandNode_lb (oracle : Oracle) (Qo : Mat) (Po : Vec) (Ro : ℚ)
    (node : Node) (s : BB) :
    (expandNode oracle Qo Po Ro node s).lb = s.lb := by
  unfold expandNode
  rw [expandOne_lb, expandOne_lb]

theorem expandNode_relSolved (oracle : Oracle) (Qo : Mat) (Po : Vec)
    (Ro : ℚ) (node : Node) (s : BB) :
    (expandNode oracle Qo Po Ro node s).relSolved = s.relSolved + 2 := by
  unfold expandNode
  rw [expandOne_relSolved, expandOne_relSolved]

theorem expandNode_ub_le (oracle : Oracle) (Qo : Mat) (Po : Vec) (Ro : ℚ)
    (node : Node) (s : BB) :
    (expandNode oracle Qo Po Ro node s).ub ≤ s.ub := by
  unfold expandNode
  exact le_trans (expandOne_ub_le _ _ _ _ _ _ _) (expandOne_ub_le _ _ _ _ _ _ _)

theorem expandNode_mem_active (oracle : Oracle) (Qo : Mat) (Po : Vec)
    (Ro : ℚ) (node : Node) (s : BB) (x : Node)
    (hx : x ∈ (expandNode oracle Qo Po Ro node s).active) :
    x ∈ s.active ∨ ∃ val r k, (val = 0 ∨ val = 1) ∧
      callOracle oracle (makeChild node val) = some r ∧
      x = childNode node val r k := by
  unfold expandNode at hx
  rcases expandOne_mem_active _ _ _ _ _ _ _ _ hx with hx1 | ⟨r, hr, hxe⟩
  · rcases expandOne_mem_active _ _ _ _ _ _ _ _ hx1 with hx2 | ⟨r, hr, hxe⟩
    · exact Or.inl hx2
    · exact Or.inr ⟨0, r, _, Or.inl rfl, hr, hxe⟩
  · exact Or.inr ⟨1, r, _, Or.inr rfl, hr, hxe⟩

/-! ## Claim C9: oracle-failure handling -/

/-- C9.  If the relaxation solve of a child fails (oracle returns none),
the engine drops that child without contributing a bound: the queue, the
bounds and the incumbent are unchanged by the failed node. -/
theorem binquad_C9 (oracle : Oracle) (Qo : Mat) (Po : Vec) (Ro : ℚ)
    (node : Node) (val : ℚ) (s : BB)
    (hfail : callOracle oracle (makeChild node val) = none) :
    (expandOne oracle Qo Po Ro node val s).active = s.active ∧
    (expandOne oracle Qo Po Ro node val s).lb = s.lb ∧
    (expandOne oracle Qo Po Ro node val s).ub = s.ub ∧
    (expandOne oracle Qo Po Ro node val s).incumbent = s.incumbent := by
  rw [expandOne_fail oracle Qo Po Ro node val s hfail]
  exact ⟨rfl, rfl, rfl, rfl⟩

/-- Witness for C9: an always-failing oracle on a concrete node. -/
theorem binquad_C9_witness :
    ((fun _ _ _ _ _ => none : Oracle)
        (makeChild ⟨0, 0, [[0]], [0], 0, [0], [0], 0⟩ 0).Q
        (makeChild ⟨0, 0, [[0]], [0], 0, [0], [0], 0⟩ 0).P
        (makeChild ⟨0, 0, [[0]], [0], 0, [0], [0], 0⟩ 0).R
        (makeChild ⟨0, 0, [[0]], [0], 0, [0], [0], 0⟩ 0).curr
        (makeChild ⟨0, 0, [[0]], [0], 0, [0], [0], 0⟩ 0).idxmap = none) ∧
    (expandOne (fun _ _ _ _ _ => none) [[0]] [0] 0
        ⟨0, 0, [[0]], [0], 0, [0], [0], 0⟩ 0
        ⟨[], 0, 0, [0], 0⟩).active = (⟨[], 0, 0, [0], 0⟩ : BB).active := by
  refine ⟨rfl, ?_⟩
  exact (binquad_C9 (fun _ _ _ _ _ => none) [[0]] [0] 0
    ⟨0, 0, [[0]], [0], 0, [0], [0], 0⟩ 0 ⟨[], 0, 0, [0], 0⟩ rfl).1

/-! ## Claim C6: terminal-node guard -/

/-- C6.  A popped node of reduced dimension at most 1 that passes the gap
check is discarded: the loop continues on the remaining queue with only lb
updated — no oracle call is made (relSolved is untouched), no children are
pushed, and the continuation state does not depend on the node's idxmap or
pivot, so the branch variable idxmap[pivot] is never read. -/
theorem binquad_C6 (oracle : Oracle) (Qo : Mat) (Po : Vec) (Ro : ℚ)
    (tstop : ℚ → ℚ → Bool) (fuel : ℕ) (s : BB) (node : Node)
    (rest : List Node) (hpop : popMin s.active = some (node, rest))
    (hstop : tstop node.obj s.ub = false) (hdim : node.P.length ≤ 1) :
    solveBB oracle Qo Po Ro tstop (fuel + 1) s =
      solveBB oracle Qo Po Ro tstop fuel
        { s with active := rest, lb := node.obj } := by
  simp [solveBB, hpop, hstop, hdim]

/-- Witness for C6 on a one-dimensional terminal node. -/
theorem binquad_C6_witness :
    popMin ([⟨1, 0, [[0]], [0], 0, [0], [0], 0⟩] : List Node) =
      some (⟨1, 0, [[0]], [0], 0, [0], [0], 0⟩, []) ∧
    gapTest 0 (1 : ℚ) 10 = false ∧
    ([0] : Vec).length ≤ 1 ∧
    solveBB (fun _ _ _ _ _ => none) [[0]] [0] 0 (gapTest 0) 1
        ⟨[⟨1, 0, [[0]], [0], 0, [0], [0], 0⟩], 0, 10, [0], 0⟩ =
      solveBB (fun _ _ _ _ _ => none) [[0]] [0] 0 (gapTest 0) 0
        ⟨[], 1, 10, [0], 0⟩ := by
  refine ⟨by simp [popMin], by simp [gapTest], by decide, ?_⟩
  exact binquad_C6 (fun _ _ _ _ _ => none) [[0]] [0] 0 (gapTest 0) 0
    ⟨[⟨1, 0, [[0]], [0], 0, [0], [0], 0⟩], 0, 10, [0], 0⟩
    ⟨1, 0, [[0]], [0], 0, [0], [0], 0⟩ [] (by simp [popMin])
    (by simp [gapTest]) (by decide)

/-! ## Claim C7: expansion cardinality and oracle boundary -/

/-- C7.  A popped node that passes the gap check and has reduced dimension
at least 2 is expanded into exactly two children, one per value v in {0,1},
each pushed with the oracle's objective and branch index for that child's
reduced data; the oracle is invoked exactly once per enqueued child, so the
relaxation counter rises by exactly 2. -/
theorem binquad_C7 (oracle : Oracle) (Qo : Mat) (Po : Vec) (Ro : ℚ)
    (tstop : ℚ → ℚ → Bool) (fuel : ℕ) (s : BB) (node : Node)
    (rest : List Node) (r0 r1 : OracleResult)
    (hpop : popMin s.active = some (node, rest))
    (hstop : tstop node.obj s.ub = false) (hdim : 2 ≤ node.P.length)
    (h0 : callOracle oracle (makeChild node 0) = some r0)
    (h1 : callOracle oracle (makeChild node 1) = some r1) :
    solveBB oracle Qo Po Ro tstop (fuel + 1) s =
      solveBB oracle Qo Po Ro tstop fuel
        (expandNode oracle Qo Po Ro node
          { s with active := rest, lb := node.obj }) ∧
    (expandNode oracle Qo Po Ro node
        { s with active := rest, lb := node.obj }).active =
      rest ++ [childNode node 0 r0 (s.relSolved + 1),
        childNode node 1 r1 (s.relSolved + 2)] ∧
    (expandNode oracle Qo Po Ro node
        { s with active := rest, lb := node.obj }).relSolved =
      s.relSolved + 2 := by
  have hno : ¬ node.P.length ≤ 1 := by omega
  refine ⟨by simp [solveBB, hpop, hstop, hno], ?_, ?_⟩
  · unfold expandNode
    rw [expandOne_succ oracle Qo Po Ro node 1 _ r1 h1]
    simp only [updateIncumbent_active, expandOne_relSolved]
    rw [expandOne_succ oracle Qo Po Ro node 0 _ r0 h0]
    simp only [updateIncumbent_active]
    simp [List.append_assoc]
  · unfold expandNode
    rw [expandOne_relSolved, expandOne_relSolved]

/-- Witness for C7: a two-dimensional node expanded under a constant
oracle; the expansion enqueues two children and counts two solves. -/
theorem binquad_C7_witness :
    popMin ([⟨0, 0, [[0, 0], [0, 0]], [0, 0], 0, [0, 0], [0, 1], 0⟩] :
        List Node) =
      some (⟨0, 0, [[0, 0], [0, 0]], [0, 0], 0, [0, 0], [0, 1], 0⟩, []) ∧
    gapTest 0 (0 : ℚ) 10 = false ∧
    2 ≤ ([0, 0] : Vec).length ∧
    (expandNode (fun _ _ _ _ _ => some ⟨5, [0], 0⟩) [[0, 0], [0, 0]] [0, 0] 0
        ⟨0, 0, [[0, 0], [0, 0]], [0, 0], 0, [0, 0], [0, 1], 0⟩
        ⟨[], 0, 10, [0, 0], 0⟩).relSolved = 0 + 2 := by
  refine ⟨by simp [popMin], by simp [gapTest], by decide, ?_⟩
  exact (binquad_C7 (fun _ _ _ _ _ => some ⟨5, [0], 0⟩) [[0, 0], [0, 0]]
    [0, 0] 0 (gapTest 0) 0
    ⟨[⟨0, 0, [[0, 0], [0, 0]], [0, 0], 0, [0, 0], [0, 1], 0⟩], 0, 10,
      [0, 0], 0⟩
    ⟨0, 0, [[0, 0], [0, 0]], [0, 0], 0, [0, 0], [0, 1], 0⟩ [] ⟨5, [0], 0⟩
    ⟨5, [0], 0⟩ (by simp [popMin]) (by simp [gapTest]) (by decide) rfl
    rfl).2.2

/-! ## Claim C10: expansion purity -/

/-- C10.  Expanding a node never alters the parent data: each child's
assignment is the parent's with exactly the entry at the pivot's original
index idxmap[pivot] set to v (all other entries unchanged), and the two
children share the same reduced Q and the same reduced index map, so they
differ only in P0, R0 and that single assignment entry. -/
theorem binquad_C10 (node : Node)
    (h : node.idxmap.getD node.pivot 0 < node.curr.length) :
    (∀ v : ℚ,
      (makeChild node v).curr =
        node.curr.set (node.idxmap.getD node.pivot 0) v ∧
      (makeChild node v).curr.getD (node.idxmap.getD node.pivot 0) 0 = v ∧
      ∀ j, j ≠ node.idxmap.getD node.pivot 0 →
        (makeChild node v).curr.getD j 0 = node.curr.getD j 0) ∧
    (makeChild node 0).Q = (makeChild node 1).Q ∧
    (makeChild node 0).idxmap = (makeChild node 1).idxmap := by
  refine ⟨fun v => ⟨rfl, ?_, ?_⟩, rfl, rfl⟩
  · exact getD_set_self _ _ _ _ h
  · intro j hj
    exact getD_set_ne _ _ _ _ _ hj

/-- Witness for C10 on a concrete two-dimensional node. -/
theorem binquad_C10_witness :
    (([0, 1] : List ℕ).getD 0 0 < ([0, 0] : Vec).length) ∧
    (makeChild ⟨0, 0, [[0, 0], [0, 0]], [0, 0], 0, [0, 0], [0, 1], 0⟩ 0).Q =
      (makeChild ⟨0, 0, [[0, 0], [0, 0]], [0, 0], 0, [0, 0], [0, 1], 0⟩ 1).Q :=
  ⟨by decide,
    (binquad_C10 ⟨0, 0, [[0, 0], [0, 0]], [0, 0], 0, [0, 0], [0, 1], 0⟩
      (by decide)).2.1⟩

/-! ## Claim C3: lower-bound monotonicity -/

theorem runTrace_stop (oracle : Oracle) (Qo : Mat) (Po : Vec) (Ro : ℚ)
    (tstop : ℚ → ℚ → Bool) (fuel : ℕ) (s : BB) (node : Node)
    (rest : List Node) (hpop : popMin s.active = some (node, rest))
    (hstop : tstop node.obj s.ub = true) :
    runTrace oracle Qo Po Ro tstop (fuel + 1) s = [node.obj] := by
  simp [runTrace, hpop, hstop]

theorem runTrace_terminal (oracle : Oracle) (Qo : Mat) (Po : Vec) (Ro : ℚ)
    (tstop : ℚ → ℚ → Bool) (fuel : ℕ) (s : BB) (node : Node)
    (rest : List Node) (hpop : popMin s.active = some (node, rest))
    (hstop : tstop node.obj s.ub = false) (hdim : node.P.length ≤ 1) :
    runTrace oracle Qo Po Ro tstop (fuel + 1) s =
      node.obj :: runTrace oracle Qo Po Ro tstop fuel
        { s with active := rest, lb := node.obj } := by
  simp [runTrace, hpop, hstop, hdim]

theorem runTrace_expand (oracle : Oracle) (Qo : Mat) (Po : Vec) (Ro : ℚ)
    (tstop : ℚ → ℚ → Bool) (fuel : ℕ) (s : BB) (node : Node)
    (rest : List Node) (hpop : popMin s.active = some (node, rest))
    (hstop : tstop node.obj s.ub = false) (hdim : ¬ node.P.length ≤ 1) :
    runTrace oracle Qo Po Ro tstop (fuel + 1) s =
      node.obj :: runTrace oracle Qo Po Ro tstop fuel
        (expandNode oracle Qo Po Ro node
          { s with active := rest, lb := node.obj }) := by
  simp [runTrace, hpop, hstop, hdim]

theorem childNode_solved (oracle : Oracle) (node : Node) (val : ℚ)
    (r : OracleResult) (k : ℕ)
    (hr : callOracle oracle (makeChild node val) = some r) :
    NodeSolved oracle (childNode node val r k) := ⟨r, hr, rfl⟩

theorem runTrace_chain_aux (oracle : Oracle) (Qo : Mat) (Po : Vec) (Ro : ℚ)
    (tstop : ℚ → ℚ → Bool) (hmono : OracleMono oracle) :
    ∀ (fuel : ℕ) (s : BB) (b : ℚ), (∀ x ∈ s.active, b ≤ x.obj) →
      (∀ x ∈ s.active, NodeSolved oracle x) →
      List.Chain' (· ≤ ·) (b :: runTrace oracle Qo Po Ro tstop fuel s) := by
  intro fuel
  induction fuel with
  | zero => intro s b _ _; simp [runTrace]
  | succ fuel ih =>
    intro s b hb hsol
    cases hpop : popMin s.active with
    | none => simp [runTrace, hpop]
    | some p =>
      obtain ⟨node, rest⟩ := p
      have hbn : b ≤ node.obj := hb node (popMin_mem hpop)
      have hnsol : NodeSolved oracle node := hsol node (popMin_mem hpop)
      have hrest : ∀ x ∈ rest, node.obj ≤ x.obj := fun x hx =>
        popMin_le hpop x (popMin_rest_subset hpop x hx)
      have hrsol : ∀ x ∈ rest, NodeSolved oracle x := fun x hx =>
        hsol x (popMin_rest_subset hpop x hx)
      cases hstop : tstop node.obj s.ub with
      | true =>
        rw [runTrace_stop oracle Qo Po Ro tstop fuel s node rest hpop hstop]
        simp [hbn]
      | false =>
        by_cases hdim : node.P.length ≤ 1
        · rw [runTrace_terminal oracle Qo Po Ro tstop fuel s node rest hpop
            hstop hdim]
          rw [List.chain'_cons]
          exact ⟨hbn, ih _ node.obj hrest hrsol⟩
        · rw [runTrace_expand oracle Qo Po Ro tstop fuel s node rest hpop
            hstop hdim]
          rw [List.chain'_cons]
          refine ⟨hbn, ih _ node.obj ?_ ?_⟩
          · intro x hx
            rcases expandNode_mem_active _ _ _ _ _ _ _ hx with hx1 | hx1
            · exact hrest x hx1
            · obtain ⟨val, r, k, _, hr, hxe⟩ := hx1
              subst hxe
              obtain ⟨rp, hrp, hrpo⟩ := hnsol
              exact hmono node val rp r hrp hrpo hr
          · intro x hx
            rcases expandNode_mem_active _ _ _ _ _ _ _ hx with hx1 | hx1
            · exact hrsol x hx1
            · obtain ⟨val, r, k, _, hr, hxe⟩ := hx1
              subst hxe
              exact childNode_solved oracle node val r k hr

/-- C3.  Lower-bound monotonicity: provided the oracle satisfies the
convex-relaxation guarantee on real parents (if it answered rp on a
node's own data, so that node.obj = rp.obj, then its answer on any of
that node's children is at least node.obj), and every node of the initial
queue carries the oracle's own objective for its data (as every enqueued
node does), the successive objective values popped from the active
queue — the successive values of lower_bound — form a non-decreasing
sequence. -/
theorem binquad_C3 (oracle : Oracle) (Qo : Mat) (Po : Vec) (Ro : ℚ)
    (tstop : ℚ → ℚ → Bool) (fuel : ℕ) (s : BB)
    (hmono : OracleMono oracle)
    (hsolved : ∀ x ∈ s.active, NodeSolved oracle x) :
    List.Chain' (· ≤ ·) (runTrace oracle Qo Po Ro tstop fuel s) := by
  cases fuel with
  | zero => simp [runTrace]
  | succ fuel =>
    cases hpop : popMin s.active with
    | none => simp [runTrace, hpop]
    | some p =>
      obtain ⟨node, rest⟩ := p
      have hnsol : NodeSolved oracle node := hsolved node (popMin_mem hpop)
      have hrest : ∀ x ∈ rest, node.obj ≤ x.obj := fun x hx =>
        popMin_le hpop x (popMin_rest_subset hpop x hx)
      have hrsol : ∀ x ∈ rest, NodeSolved oracle x := fun x hx =>
        hsolved x (popMin_rest_subset hpop x hx)
      cases hstop : tstop node.obj s.ub with
      | true =>
        rw [runTrace_stop oracle Qo Po Ro tstop fuel s node rest hpop hstop]
        simp
      | false =>
        by_cases hdim : node.P.length ≤ 1
        · rw [runTrace_terminal oracle Qo Po Ro tstop fuel s node rest hpop
            hstop hdim]
          exact runTrace_chain_aux oracle Qo Po Ro tstop hmono fuel _
            node.obj hrest hrsol
        · rw [runTrace_expand oracle Qo Po Ro tstop fuel s node rest hpop
            hstop hdim]
          refine runTrace_chain_aux oracle Qo Po Ro tstop hmono fuel _
            node.obj ?_ ?_
          · intro x hx
            rcases expandNode_mem_active _ _ _ _ _ _ _ hx with hx1 | hx1
            · exact hrest x hx1
            · obtain ⟨val, r, k, _, hr, hxe⟩ := hx1
              subst hxe
              obtain ⟨rp, hrp, hrpo⟩ := hnsol
              exact hmono node val rp r hrp hrpo hr
          · intro x hx
            rcases expandNode_mem_active _ _ _ _ _ _ _ hx with hx1 | hx1
            · exact hrsol x hx1
            · obtain ⟨val, r, k, _, hr, hxe⟩ := hx1
              subst hxe
              exact childNode_solved oracle node val r k hr

/-- Witness for C3: a constant succeeding oracle (objective 7 on every
datum) is monotone on real parents, the initial node carries the
oracle's objective for its data, and the trace of the resulting run —
which expands that node and enqueues and pops its two children — is a
chain. -/
theorem binquad_C3_witness :
    OracleMono (fun _ _ _ _ _ => some ⟨7, [0], 0⟩) ∧
    (∀ x ∈ ([⟨7, 0, [[0, 0], [0, 0]], [0, 0], 0, [0, 0], [0, 1], 0⟩] :
        List Node),
      NodeSolved (fun _ _ _ _ _ => some ⟨7, [0], 0⟩) x) ∧
    List.Chain' (· ≤ ·)
      (runTrace (fun _ _ _ _ _ => some ⟨7, [0], 0⟩) [[0, 0], [0, 0]]
        [0, 0] 0 (gapTest 0) 4
        ⟨[⟨7, 0, [[0, 0], [0, 0]], [0, 0], 0, [0, 0], [0, 1], 0⟩],
          0, 100, [0, 0], 0⟩) := by
  have hmono : OracleMono (fun _ _ _ _ _ => some ⟨7, [0], 0⟩) := by
    intro node val rp rc h1 h2 h3
    have hrp : (⟨7, [0], 0⟩ : OracleResult) = rp := Option.some.inj h1
    have hrc : (⟨7, [0], 0⟩ : OracleResult) = rc := Option.some.inj h3
    rw [h2, ← hrp, ← hrc]
  have hsolved : ∀ x ∈ ([⟨7, 0, [[0, 0], [0, 0]], [0, 0], 0, [0, 0],
      [0, 1], 0⟩] : List Node),
      NodeSolved (fun _ _ _ _ _ => some ⟨7, [0], 0⟩) x := by
    intro x hx
    simp at hx
    subst hx
    exact ⟨⟨7, [0], 0⟩, rfl, rfl⟩
  exact ⟨hmono, hsolved,
    binquad_C3 (fun _ _ _ _ _ => some ⟨7, [0], 0⟩) [[0, 0], [0, 0]] [0, 0]
      0 (gapTest 0) 4
      ⟨[⟨7, 0, [[0, 0], [0, 0]], [0, 0], 0, [0, 0], [0, 1], 0⟩],
        0, 100, [0, 0], 0⟩ hmono hsolved⟩

/-! ## Unfolding lemmas for the main loop -/

theorem solveBB_zero (oracle : Oracle) (Qo : Mat) (Po : Vec) (Ro : ℚ)
    (tstop : ℚ → ℚ → Bool) (s : BB) :
    solveBB oracle Qo Po Ro tstop 0 s = (s, .fuelOut) := rfl

theorem solveBB_pop_none (oracle : Oracle) (Qo : Mat) (Po : Vec) (Ro : ℚ)
    (tstop : ℚ → ℚ → Bool) (fuel : ℕ) (s : BB)
    (hpop : popMin s.active = none) :
    solveBB oracle Qo Po Ro tstop (fuel + 1) s = (s, .emptyExit) := by
  simp [solveBB, hpop]

theorem solveBB_stop (oracle : Oracle) (Qo : Mat) (Po : Vec) (Ro : ℚ)
    (tstop : ℚ → ℚ → Bool) (fuel : ℕ) (s : BB) (node : Node)
    (rest : List Node) (hpop : popMin s.active = some (node, rest))
    (hstop : tstop node.obj s.ub = true) :
    solveBB oracle Qo Po Ro tstop (fuel + 1) s =
      ({ s with active := [], lb := node.obj }, .gapExit) := by
  simp [solveBB, hpop, hstop]

theorem solveBB_terminal (oracle : Oracle) (Qo : Mat) (Po : Vec) (Ro : ℚ)
    (tstop : ℚ → ℚ → Bool) (fuel : ℕ) (s : BB) (node : Node)
    (rest : List Node) (hpop : popMin s.active = some (node, rest))
    (hstop : tstop node.obj s.ub = false) (hdim : node.P.length ≤ 1) :
    solveBB oracle Qo Po Ro tstop (fuel + 1) s =
      solveBB oracle Qo Po Ro tstop fuel
        { s with active := rest, lb := node.obj } := by
  simp [solveBB, hpop, hstop, hdim]

theorem solveBB_expand (oracle : Oracle) (Qo : Mat) (Po : Vec) (Ro : ℚ)
    (tstop : ℚ → ℚ → Bool) (fuel : ℕ) (s : BB) (node : Node)
    (rest : List Node) (hpop : popMin s.active = some (node, rest))
    (hstop : tstop node.obj s.ub = false) (hdim : ¬ node.P.length ≤ 1) :
    solveBB oracle Qo Po Ro tstop (fuel + 1) s =
      solveBB oracle Qo Po Ro tstop fuel
        (expandNode oracle Qo Po Ro node
          { s with active := rest, lb := node.obj }) := by
  simp [solveBB, hpop, hstop, hdim]

theorem expandNode_active_nil (oracle : Oracle) (Qo : Mat) (Po : Vec)
    (Ro : ℚ) (node : Node) (s : BB)
    (h : (expandNode oracle Qo Po Ro node s).active = []) :
    s.active = [] ∧ (expandNode oracle Qo Po Ro node s).ub = s.ub := by
  unfold expandNode at h ⊢
  cases h0 : callOracle oracle (makeChild node 0) with
  | none =>
    rw [expandOne_fail oracle Qo Po Ro node 0 s h0] at h ⊢
    cases h1 : callOracle oracle (makeChild node 1) with
    | none =>
      rw [expandOne_fail oracle Qo Po Ro node 1 _ h1] at h ⊢
      exact ⟨h, rfl⟩
    | some r =>
      rw [expandOne_succ oracle Qo Po Ro node 1 _ r h1] at h
      simp only [updateIncumbent_active] at h
      simp at h
  | some r =>
    rw [expandOne_succ oracle Qo Po Ro node 0 s r h0] at h
    cases h1 : callOracle oracle
        (makeChild node 1) with
    | none =>
      rw [expandOne_fail oracle Qo Po Ro node 1 _ h1] at h
      simp only [updateIncumbent_active] at h
      simp at h
    | some r1 =>
      rw [expandOne_succ oracle Qo Po Ro node 1 _ r1 h1] at h
      simp only [updateIncumbent_active] at h
      simp at h

/-! ## Claim C5: bound ordering (corrected) -/

set_option maxHeartbeats 2000000 in
/-- Counterexample to C5 as stated.  A three-iteration run with a valid
oracle (every reported objective is a true lower bound of its subproblem)
exits via the gap check in a state with lower_bound = 3 greater than
upper_bound = 0, so the loop does terminate while lower_bound >
upper_bound, and lower_bound <= upper_bound + 1 fails at that iteration. -/
theorem binquad_C5_counterexample :
    (solveBB
        (fun _ _ R0 _ _ =>
          if R0 = 0 then some ⟨-1, [0], 0⟩ else some ⟨3, [0], 0⟩)
        [[0, 0], [0, 0]] [10, 5] 0 (gapTest 0) 10
        ⟨[⟨-1, 0, [[0, 0], [0, 0]], [10, 5], 0, [0, 0], [0, 1], 0⟩],
          -100, 0, [0, 0], 1⟩).2 = ExitKind.gapExit ∧
    (solveBB
        (fun _ _ R0 _ _ =>
          if R0 = 0 then some ⟨-1, [0], 0⟩ else some ⟨3, [0], 0⟩)
        [[0, 0], [0, 0]] [10, 5] 0 (gapTest 0) 10
        ⟨[⟨-1, 0, [[0, 0], [0, 0]], [10, 5], 0, [0, 0], [0, 1], 0⟩],
          -100, 0, [0, 0], 1⟩).1.ub <
      (solveBB
        (fun _ _ R0 _ _ =>
          if R0 = 0 then some ⟨-1, [0], 0⟩ else some ⟨3, [0], 0⟩)
        [[0, 0], [0, 0]] [10, 5] 0 (gapTest 0) 10
        ⟨[⟨-1, 0, [[0, 0], [0, 0]], [10, 5], 0, [0, 0], [0, 1], 0⟩],
          -100, 0, [0, 0], 1⟩).1.lb ∧
    ¬ ((solveBB
        (fun _ _ R0 _ _ =>
          if R0 = 0 then some ⟨-1, [0], 0⟩ else some ⟨3, [0], 0⟩)
        [[0, 0], [0, 0]] [10, 5] 0 (gapTest 0) 10
        ⟨[⟨-1, 0, [[0, 0], [0, 0]], [10, 5], 0, [0, 0], [0, 1], 0⟩],
          -100, 0, [0, 0], 1⟩).1.lb ≤
      (solveBB
        (fun _ _ R0 _ _ =>
          if R0 = 0 then some ⟨-1, [0], 0⟩ else some ⟨3, [0], 0⟩)
        [[0, 0], [0, 0]] [10, 5] 0 (gapTest 0) 10
        ⟨[⟨-1, 0, [[0, 0], [0, 0]], [10, 5], 0, [0, 0], [0, 1], 0⟩],
          -100, 0, [0, 0], 1⟩).1.ub + 1) := by
  have h : (solveBB
      (fun _ _ R0 _ _ =>
        if R0 = 0 then some ⟨-1, [0], 0⟩ else some ⟨3, [0], 0⟩)
      [[0, 0], [0, 0]] [10, 5] 0 (gapTest 0) 10
      ⟨[⟨-1, 0, [[0, 0], [0, 0]], [10, 5], 0, [0, 0], [0, 1], 0⟩],
        -100, 0, [0, 0], 1⟩) =
      (⟨[], 3, 0, [0, 0], 3⟩, ExitKind.gapExit) := by
    norm_num [solveBB, popMin, keyLE, gapTest, expandNode, expandOne,
      solveRelaxation, callOracle, makeChild, updateIncumbent, embedFree,
      roundHalf, objective, quadForm, dotVec, entry, List.eraseIdx,
      List.set, List.zipWith]
  rw [h]
  norm_num

/-- C5 amended.  What does hold: (1) an iteration only proceeds past the
termination check when lower_bound < upper_bound - gap_tolerance, so the
loop never expands or discards a node while lower_bound > upper_bound (for
gap_tolerance >= 0); (2) when the loop ends because the queue is exhausted
after at least one iteration, lower_bound < upper_bound - gap_tolerance at
exit.  The loop can, however, terminate via the gap check itself with
lower_bound > upper_bound, as the counterexample shows. -/
theorem binquad_C5_amended (oracle : Oracle) (Qo : Mat) (Po : Vec) (Ro : ℚ)
    (gaptol : ℚ) :
    (∀ (s : BB) (node : Node) (rest : List Node),
      popMin s.active = some (node, rest) →
      gapTest gaptol node.obj s.ub = false → node.obj < s.ub - gaptol) ∧
    (∀ (fuel : ℕ) (s s' : BB),
      solveBB oracle Qo Po Ro (gapTest gaptol) fuel s = (s', .emptyExit) →
      s'.lb < s'.ub - gaptol ∨ (s' = s ∧ s.active = [])) := by
  have hkey : ∀ (lb ub : ℚ), gapTest gaptol lb ub = false → lb < ub - gaptol := by
    intro lb ub h
    have := of_decide_eq_false h
    exact lt_of_not_le fun hc => this hc
  refine ⟨fun s node rest _ h => hkey _ _ h, ?_⟩
  intro fuel
  induction fuel with
  | zero =>
    intro s s' h
    rw [solveBB_zero] at h
    simp at h
  | succ fuel ih =>
    intro s s' h
    cases hpop : popMin s.active with
    | none =>
      rw [solveBB_pop_none oracle Qo Po Ro (gapTest gaptol) fuel s hpop] at h
      have hs : s' = s := congrArg Prod.fst h.symm
      exact Or.inr ⟨hs, popMin_eq_none hpop⟩
    | some p =>
      obtain ⟨node, rest⟩ := p
      cases hstop : gapTest gaptol node.obj s.ub with
      | true =>
        rw [solveBB_stop oracle Qo Po Ro (gapTest gaptol) fuel s node rest
          hpop hstop] at h
        simp at h
      | false =>
        have hlt : node.obj < s.ub - gaptol := hkey _ _ hstop
        by_cases hdim : node.P.length ≤ 1
        · rw [solveBB_terminal oracle Qo Po Ro (gapTest gaptol) fuel s node
            rest hpop hstop hdim] at h
          rcases ih _ _ h with h1 | ⟨hs, _⟩
          · exact Or.inl h1
          · subst hs
            exact Or.inl hlt
        · rw [solveBB_expand oracle Qo Po Ro (gapTest gaptol) fuel s node
            rest hpop hstop hdim] at h
          rcases ih _ _ h with h1 | ⟨hs, hnil⟩
          · exact Or.inl h1
          · subst hs
            obtain ⟨-, hub⟩ := expandNode_active_nil oracle Qo Po Ro node
              { s with active := rest, lb := node.obj } hnil
            refine Or.inl ?_
            rw [expandNode_lb, hub]
            exact hlt

/-- Witness for the amended C5 at a concrete iteration that passes the
termination check. -/
theorem binquad_C5_amended_witness :
    popMin ([⟨1, 0, [[0]], [0], 0, [0], [0], 0⟩] : List Node) =
      some (⟨1, 0, [[0]], [0], 0, [0], [0], 0⟩, []) ∧
    gapTest 0 (1 : ℚ) 10 = false ∧
    (1 : ℚ) < 10 - 0 :=
  ⟨by simp [popMin], by simp [gapTest],
    (binquad_C5_amended (fun _ _ _ _ _ => none) [[0]] [0] 0 0).1
      ⟨[⟨1, 0, [[0]], [0], 0, [0], [0], 0⟩], 0, 10, [0], 0⟩
      ⟨1, 0, [[0]], [0], 0, [0], [0], 0⟩ [] (by simp [popMin])
      (by simp [gapTest])⟩

/-! ## Claim C8: the index_map invariant -/

theorem makeChild_idxmap (node : Node) (val : ℚ) :
    (makeChild node val).idxmap = node.idxmap.eraseIdx node.pivot := rfl

theorem makeChild_curr (node : Node) (val : ℚ) :
    (makeChild node val).curr =
      node.curr.set (node.idxmap.getD node.pivot 0) val := rfl

theorem makeChild_P_length (node : Node) (val : ℚ)
    (hQ : node.Q.length = node.P.length)
    (hp : node.pivot < node.P.length) :
    (makeChild node val).P.length = node.P.length - 1 := by
  show (List.zipWith _ (node.P.eraseIdx node.pivot)
    ((node.Q.eraseIdx node.pivot).map _)).length = node.P.length - 1
  rw [List.length_zipWith, List.length_map,
    length_eraseIdx_lt node.P node.pivot hp,
    length_eraseIdx_lt node.Q node.pivot (by rw [hQ]; exact hp)]
  rw [hQ]
  exact min_self _

theorem makeChild_Q_length (node : Node) (val : ℚ)
    (hQ : node.Q.length = node.P.length)
    (hp : node.pivot < node.P.length) :
    (makeChild node val).Q.length = node.P.length - 1 := by
  show ((node.Q.eraseIdx node.pivot).map _).length = node.P.length - 1
  rw [List.length_map, length_eraseIdx_lt node.Q node.pivot
    (by rw [hQ]; exact hp), hQ]

theorem makeChild_Q_rows (node : Node) (val : ℚ)
    (hrows : ∀ row ∈ node.Q, row.length = node.P.length)
    (hp : node.pivot < node.P.length) :
    ∀ row ∈ (makeChild node val).Q, row.length = node.P.length - 1 := by
  intro row hrow
  obtain ⟨r0, hr0, hre⟩ := List.mem_map.mp hrow
  have hr0Q : r0 ∈ node.Q := eraseIdx_subset node.Q node.pivot r0 hr0
  have hlen : r0.length = node.P.length := hrows r0 hr0Q
  rw [← hre, length_eraseIdx_lt r0 node.pivot (by rw [hlen]; exact hp), hlen]

theorem makeChild_curr_length (node : Node) (val : ℚ) :
    (makeChild node val).curr.length = node.curr.length := by
  rw [makeChild_curr]
  exact List.length_set _ _ _

theorem makeChild_curr_binary (n : ℕ) (node : Node) (val : ℚ)
    (hok : NodeOK n node) (hdim : 2 ≤ node.P.length)
    (hval : val = 0 ∨ val = 1) :
    ∀ j < n, j ∉ (makeChild node val).idxmap →
      (makeChild node val).curr.getD j 0 = 0 ∨
        (makeChild node val).curr.getD j 0 = 1 := by
  obtain ⟨hnd, hlt, hlen, hQ, hrows, hcur, hbin, hpv⟩ := hok
  have hp : node.pivot < node.P.length := by
    rcases hpv with h | h
    · exact h
    · omega
  have hpi : node.pivot < node.idxmap.length := by rw [hlen]; exact hp
  have hpidx : node.idxmap.getD node.pivot 0 ∈ node.idxmap :=
    getD_mem node.idxmap node.pivot 0 hpi
  have hpidxn : node.idxmap.getD node.pivot 0 < n := hlt _ hpidx
  intro j hj hnotin
  rw [makeChild_idxmap] at hnotin
  rw [makeChild_curr]
  by_cases hje : j = node.idxmap.getD node.pivot 0
  · subst hje
    rw [getD_set_self node.curr _ val 0 (by rw [hcur]; exact hpidxn)]
    exact hval
  · rw [getD_set_ne node.curr _ j val 0 hje]
    refine hbin j hj ?_
    intro hjin
    exact hje (mem_of_not_mem_eraseIdx node.idxmap node.pivot 0 hpi j
      hjin hnotin)

theorem childNode_OK (n : ℕ) (node : Node) (val : ℚ) (r : OracleResult)
    (k : ℕ) (hok : NodeOK n node) (hdim : 2 ≤ node.P.length)
    (hval : val = 0 ∨ val = 1)
    (hpl : r.pivot < (makeChild node val).P.length ∨
      (makeChild node val).P.length ≤ 1) :
    NodeOK n (childNode node val r k) := by
  obtain ⟨hnd, hlt, hlen, hQ, hrows, hcur, hbin, hpv⟩ := hok
  have hp : node.pivot < node.P.length := by
    rcases hpv with h | h
    · exact h
    · omega
  have hpi : node.pivot < node.idxmap.length := by rw [hlen]; exact hp
  have hPlen : (makeChild node val).P.length = node.P.length - 1 :=
    makeChild_P_length node val hQ hp
  have hpidx : node.idxmap.getD node.pivot 0 ∈ node.idxmap :=
    getD_mem node.idxmap node.pivot 0 hpi
  have hpidxn : node.idxmap.getD node.pivot 0 < n := hlt _ hpidx
  refine ⟨?_, ?_, ?_, ?_, ?_, ?_, ?_, ?_⟩
  · exact nodup_eraseIdx node.idxmap node.pivot hnd
  · intro i hi
    exact hlt i (eraseIdx_subset node.idxmap node.pivot i hi)
  · show (node.idxmap.eraseIdx node.pivot).length = _
    rw [length_eraseIdx_lt node.idxmap node.pivot hpi, hlen]
    exact hPlen.symm
  · show (makeChild node val).Q.length = (makeChild node val).P.length
    rw [makeChild_Q_length node val hQ hp, hPlen]
  · intro row hrow
    show row.length = (makeChild node val).P.length
    rw [hPlen]
    exact makeChild_Q_rows node val hrows hp row hrow
  · show (makeChild node val).curr.length = n
    rw [makeChild_curr_length]
    exact hcur
  · exact makeChild_curr_binary n node val
      ⟨hnd, hlt, hlen, hQ, hrows, hcur, hbin, hpv⟩ hdim hval
  · exact hpl

theorem solveBB_queueOK (n : ℕ) (oracle : Oracle) (Qo : Mat) (Po : Vec)
    (Ro : ℚ) (tstop : ℚ → ℚ → Bool) (hpiv : OraclePivotLt oracle) :
    ∀ (fuel : ℕ) (s : BB), QueueOK n s →
      QueueOK n (solveBB oracle Qo Po Ro tstop fuel s).1 := by
  intro fuel
  induction fuel with
  | zero => intro s hs; rw [solveBB_zero]; exact hs
  | succ fuel ih =>
    intro s hs
    cases hpop : popMin s.active with
    | none =>
      rw [solveBB_pop_none oracle Qo Po Ro tstop fuel s hpop]
      exact hs
    | some p =>
      obtain ⟨node, rest⟩ := p
      have hnode : NodeOK n node := hs node (popMin_mem hpop)
      have hrest : ∀ x ∈ rest, NodeOK n x := fun x hx =>
        hs x (popMin_rest_subset hpop x hx)
      cases hstop : tstop node.obj s.ub with
      | true =>
        rw [solveBB_stop oracle Qo Po Ro tstop fuel s node rest hpop hstop]
        intro x hx
        simp at hx
      | false =>
        by_cases hdim : node.P.length ≤ 1
        · rw [solveBB_terminal oracle Qo Po Ro tstop fuel s node rest hpop
            hstop hdim]
          exact ih _ hrest
        · rw [solveBB_expand oracle Qo Po Ro tstop fuel s node rest hpop
            hstop hdim]
          refine ih _ ?_
          intro x hx
          rcases expandNode_mem_active _ _ _ _ _ _ _ hx with hx1 | hx1
          · exact hrest x hx1
          · obtain ⟨val, r, k, hval, hr, hxe⟩ := hx1
            subst hxe
            refine childNode_OK n node val r k hnode (by omega) hval ?_
            by_cases h1 : (makeChild node val).P.length ≤ 1
            · exact Or.inr h1
            · refine Or.inl ?_
              exact hpiv _ _ _ _ _ r hr

/-- C8.  The index_map invariant: expanding a well-formed node of reduced
dimension at least 2 yields children whose index_map is the parent's with
the pivot position deleted, again duplicate-free with entries in
{0,...,n-1} and of length equal to the child's reduced dimension (one less
than the parent's); consequently, provided the oracle reports in-range
branch indices, every state reached by the loop from a well-formed queue
again has only well-formed nodes in its queue. -/
theorem binquad_C8 (n : ℕ) (oracle : Oracle) (Qo : Mat) (Po : Vec) (Ro : ℚ)
    (tstop : ℚ → ℚ → Bool) (hpiv : OraclePivotLt oracle) :
    (∀ (node : Node) (val : ℚ) (r : OracleResult) (k : ℕ),
      NodeOK n node → 2 ≤ node.P.length → (val = 0 ∨ val = 1) →
      callOracle oracle (makeChild node val) = some r →
      NodeOK n (childNode node val r k) ∧
      (childNode node val r k).idxmap = node.idxmap.eraseIdx node.pivot ∧
      (childNode node val r k).idxmap.length =
        (childNode node val r k).P.length ∧
      (childNode node val r k).P.length = node.P.length - 1) ∧
    (∀ (fuel : ℕ) (s : BB), QueueOK n s →
      QueueOK n (solveBB oracle Qo Po Ro tstop fuel s).1) := by
  constructor
  · intro node val r k hok hdim hval hr
    have hpl : r.pivot < (makeChild node val).P.length ∨
        (makeChild node val).P.length ≤ 1 := by
      by_cases h1 : (makeChild node val).P.length ≤ 1
      · exact Or.inr h1
      · exact Or.inl (hpiv _ _ _ _ _ r hr)
    have hok' := childNode_OK n node val r k hok hdim hval hpl
    refine ⟨hok', rfl, hok'.2.2.1, ?_⟩
    have hp : node.pivot < node.P.length := by
      rcases hok.2.2.2.2.2.2.2 with h | h
      · exact h
      · omega
    exact makeChild_P_length node val hok.2.2.2.1 hp
  · exact solveBB_queueOK n oracle Qo Po Ro tstop hpiv

/-- Witness for C8: a concrete expansion of a well-formed two-dimensional
node under an oracle that always reports branch index 0. -/
theorem binquad_C8_witness :
    OraclePivotLt
      (fun _ P _ _ _ => if 0 < P.length then some ⟨0, [0], 0⟩ else none) ∧
    NodeOK 2 ⟨0, 0, [[0, 0], [0, 0]], [0, 0], 0, [0, 0], [0, 1], 0⟩ ∧
    2 ≤ ([0, 0] : Vec).length ∧
    ((0 : ℚ) = 0 ∨ (0 : ℚ) = 1) ∧
    callOracle
      (fun _ P _ _ _ => if 0 < P.length then some ⟨0, [0], 0⟩ else none)
      (makeChild ⟨0, 0, [[0, 0], [0, 0]], [0, 0], 0, [0, 0], [0, 1], 0⟩ 0) =
      some ⟨0, [0], 0⟩ ∧
    (childNode ⟨0, 0, [[0, 0], [0, 0]], [0, 0], 0, [0, 0], [0, 1], 0⟩ 0
      ⟨0, [0], 0⟩ 5).P.length = ([0, 0] : Vec).length - 1 := by
  have hpiv : OraclePivotLt
      (fun _ P _ _ _ => if 0 < P.length then some ⟨0, [0], 0⟩ else none) := by
    intro Q P R c im r h
    by_cases h0 : 0 < P.length
    · simp [h0] at h
      rw [← h]
      exact h0
    · simp [h0] at h
  have hcall : callOracle
      (fun _ P _ _ _ => if 0 < P.length then some ⟨0, [0], 0⟩ else none)
      (makeChild ⟨0, 0, [[0, 0], [0, 0]], [0, 0], 0, [0, 0], [0, 1], 0⟩ 0) =
      some ⟨0, [0], 0⟩ := by
    simp [callOracle, makeChild]
  refine ⟨hpiv, by decide, by decide, Or.inl rfl, hcall, ?_⟩
  exact ((binquad_C8 2
    (fun _ P _ _ _ => if 0 < P.length then some ⟨0, [0], 0⟩ else none)
    [[0, 0], [0, 0]] [0, 0] 0 (gapTest 0) hpiv).1
    ⟨0, 0, [[0, 0], [0, 0]], [0, 0], 0, [0, 0], [0, 1], 0⟩ 0 ⟨0, [0], 0⟩ 5
    (by decide) (by decide) (Or.inl rfl) hcall).2.2.2

/-! ## Claim C2: gap-check termination -/

theorem roundHalf_length (x : Vec) : (roundHalf x).length = x.length := by
  simp [roundHalf]

theorem roundHalf_mem (x : Vec) : ∀ t ∈ roundHalf x, t = 0 ∨ t = 1 := by
  intro t ht
  simp only [roundHalf, List.mem_map] at ht
  obtain ⟨a, _, hae⟩ := ht
  by_cases h : (1 : ℚ) / 2 ≤ a
  · rw [if_pos h] at hae
    exact Or.inr hae.symm
  · rw [if_neg h] at hae
    exact Or.inl hae.symm

theorem foldl_set_length (l : List (ℕ × ℚ)) (c : Vec) :
    (l.foldl (fun c pv => c.set pv.1 pv.2) c).length = c.length := by
  induction l generalizing c with
  | nil => rfl
  | cons p t ih =>
    rw [List.foldl_cons, ih, List.length_set]

theorem embedFree_length (curr : Vec) (idxmap : List ℕ) (vals : Vec) :
    (embedFree curr idxmap vals).length = curr.length :=
  foldl_set_length _ _

theorem embedFree_binary (n : ℕ) :
    ∀ (idxmap : List ℕ) (vals curr : Vec),
      curr.length = n → (∀ t ∈ vals, t = 0 ∨ t = 1) →
      idxmap.length ≤ vals.length → (∀ i ∈ idxmap, i < n) →
      (∀ j < n, j ∉ idxmap → curr.getD j 0 = 0 ∨ curr.getD j 0 = 1) →
      ∀ j < n, (embedFree curr idxmap vals).getD j 0 = 0 ∨
        (embedFree curr idxmap vals).getD j 0 = 1 := by
  intro idxmap
  induction idxmap with
  | nil =>
    intro vals curr _ _ _ _ hbase j hj
    exact hbase j hj (by simp)
  | cons p im ih =>
    intro vals curr hlen hvals hcov hidx hbase j hj
    cases vals with
    | nil => simp at hcov
    | cons v vs =>
      have hstep : embedFree curr (p :: im) (v :: vs) =
          embedFree (curr.set p v) im vs := rfl
      rw [hstep]
      refine ih vs (curr.set p v) (by rw [List.length_set]; exact hlen)
        (fun t ht => hvals t (List.mem_cons_of_mem _ ht))
        (by simpa using hcov)
        (fun i hi => hidx i (List.mem_cons_of_mem _ hi)) ?_ j hj
      intro j' hj' hnot
      by_cases hje : j' = p
      · subst hje
        rw [getD_set_self curr _ v 0
          (by rw [hlen]; exact hidx j' (List.mem_cons_self _ _))]
        exact hvals v (List.mem_cons_self _ _)
      · rw [getD_set_ne curr p j' v 0 hje]
        refine hbase j' hj' ?_
        intro hc
        rcases List.mem_cons.mp hc with h | h
        · exact hje h
        · exact hnot h

theorem feasible_of_getD : ∀ (x : Vec),
    (∀ j < x.length, x.getD j 0 = 0 ∨ x.getD j 0 = 1) → FeasibleVec x := by
  intro x
  induction x with
  | nil => intro _ t ht; simp at ht
  | cons a t ih =>
    intro h s hs
    rcases List.mem_cons.mp hs with hs | hs
    · subst hs
      have := h 0 (by simp)
      simpa [List.getD] using this
    · refine ih ?_ s hs
      intro j hj
      have := h (j + 1) (by simp; omega)
      simpa [List.getD] using this

theorem makeChild_idxmap_length (node : Node) (val : ℚ)
    (hlen : node.idxmap.length = node.P.length)
    (hp : node.pivot < node.P.length) :
    (makeChild node val).idxmap.length = node.P.length - 1 := by
  rw [makeChild_idxmap,
    length_eraseIdx_lt node.idxmap node.pivot (by rw [hlen]; exact hp), hlen]

theorem expandOne_StInv (n : ℕ) (oracle : Oracle) (Qo : Mat) (Po : Vec)
    (Ro : ℚ) (node : Node) (val : ℚ) (s : BB)
    (hfr : OracleFracLen oracle) (hok : NodeOK n node)
    (hdim : 2 ≤ node.P.length) (hval : val = 0 ∨ val = 1)
    (hinv : StInv n Qo Po Ro s) :
    StInv n Qo Po Ro (expandOne oracle Qo Po Ro node val s) := by
  cases hc : callOracle oracle (makeChild node val) with
  | none =>
    rw [expandOne_fail oracle Qo Po Ro node val s hc]
    exact hinv
  | some r =>
    rw [expandOne_succ oracle Qo Po Ro node val s r hc]
    have hp : node.pivot < node.P.length := by
      rcases hok.2.2.2.2.2.2.2 with h | h
      · exact h
      · omega
    have hclen : (makeChild node val).curr.length = n := by
      rw [makeChild_curr_length]
      exact hok.2.2.2.2.2.1
    have hcand_len : (embedFree (makeChild node val).curr
        (makeChild node val).idxmap (roundHalf r.frac)).length = n := by
      rw [embedFree_length, hclen]
    have hfrac : r.frac.length = (makeChild node val).P.length :=
      hfr _ _ _ _ _ r hc
    have hcov : (makeChild node val).idxmap.length ≤
        (roundHalf r.frac).length := by
      rw [roundHalf_length, hfrac,
        makeChild_idxmap_length node val hok.2.2.1 hp,
        makeChild_P_length node val hok.2.2.2.1 hp]
    have hfeas : FeasibleVec (embedFree (makeChild node val).curr
        (makeChild node val).idxmap (roundHalf r.frac)) := by
      refine feasible_of_getD _ ?_
      intro j hj
      rw [hcand_len] at hj
      refine embedFree_binary n (makeChild node val).idxmap
        (roundHalf r.frac) (makeChild node val).curr hclen
        (roundHalf_mem _) hcov ?_
        (makeChild_curr_binary n node val hok hdim hval) j hj
      intro i hi
      rw [makeChild_idxmap] at hi
      exact hok.2.1 i (eraseIdx_subset _ _ i hi)
    have hmain : StInv n Qo Po Ro (updateIncumbent Qo Po Ro
        (embedFree (makeChild node val).curr (makeChild node val).idxmap
          (roundHalf r.frac)) { s with relSolved := s.relSolved + 1 }) := by
      unfold updateIncumbent
      split
      · exact ⟨hfeas, hcand_len, rfl⟩
      · exact hinv
    exact hmain

theorem expandNode_StInv (n : ℕ) (oracle : Oracle) (Qo : Mat) (Po : Vec)
    (Ro : ℚ) (node : Node) (s : BB) (hfr : OracleFracLen oracle)
    (hok : NodeOK n node) (hdim : 2 ≤ node.P.length)
    (hinv : StInv n Qo Po Ro s) :
    StInv n Qo Po Ro (expandNode oracle Qo Po Ro node s) :=
  expandOne_StInv n oracle Qo Po Ro node 1 _ hfr hok hdim (Or.inr rfl)
    (expandOne_StInv n oracle Qo Po Ro node 0 s hfr hok hdim (Or.inl rfl)
      hinv)

theorem expandNode_queueOK (n : ℕ) (oracle : Oracle) (Qo : Mat) (Po : Vec)
    (Ro : ℚ) (node : Node) (s : BB) (hpiv : OraclePivotLt oracle)
    (hok : NodeOK n node) (hdim : 2 ≤ node.P.length)
    (hq : ∀ x ∈ s.active, NodeOK n x) :
    ∀ x ∈ (expandNode oracle Qo Po Ro node s).active, NodeOK n x := by
  intro x hx
  rcases expandNode_mem_active _ _ _ _ _ _ _ hx with hx1 | hx1
  · exact hq x hx1
  · obtain ⟨val, r, k, hval, hr, hxe⟩ := hx1
    subst hxe
    refine childNode_OK n node val r k hok hdim hval ?_
    by_cases h1 : (makeChild node val).P.length ≤ 1
    · exact Or.inr h1
    · exact Or.inl (hpiv _ _ _ _ _ r hr)

/-- C2.  Gap-check termination: the loop exits via the termination test
exactly when, right after a pop sets lower_bound to the popped objective,
lower_bound >= upper_bound - gap_tolerance holds (first conjunct: the test
holding forces the gap exit at once; second conjunct: a gap exit implies
the test held).  On that exit the active queue is cleared, upper_bound -
lower_bound <= gap_tolerance holds, and the incumbent is a feasible 0/1
assignment whose original objective equals upper_bound (the incumbent
invariant being maintained by the rounding-based update at every solved
relaxation). -/
theorem binquad_C2 (n : ℕ) (oracle : Oracle) (Qo : Mat) (Po : Vec) (Ro : ℚ)
    (gaptol : ℚ) (hpiv : OraclePivotLt oracle)
    (hfr : OracleFracLen oracle) :
    (∀ (fuel : ℕ) (s : BB) (node : Node) (rest : List Node),
      popMin s.active = some (node, rest) →
      gapTest gaptol node.obj s.ub = true →
      solveBB oracle Qo Po Ro (gapTest gaptol) (fuel + 1) s =
        ({ s with active := [], lb := node.obj }, .gapExit)) ∧
    ∀ (fuel : ℕ) (s s' : BB), StInv n Qo Po Ro s → QueueOK n s →
      solveBB oracle Qo Po Ro (gapTest gaptol) fuel s = (s', .gapExit) →
      s'.active = [] ∧ s'.ub - gaptol ≤ s'.lb ∧ s'.ub - s'.lb ≤ gaptol ∧
      FeasibleVec s'.incumbent ∧
      objective Qo Po Ro s'.incumbent = s'.ub := by
  refine ⟨fun fuel s node rest hpop hstop =>
    solveBB_stop oracle Qo Po Ro (gapTest gaptol) fuel s node rest hpop
      hstop, ?_⟩
  intro fuel
  induction fuel with
  | zero =>
    intro s s' _ _ hrun
    rw [solveBB_zero] at hrun
    simp at hrun
  | succ fuel ih =>
    intro s s' hst hq hrun
    cases hpop : popMin s.active with
    | none =>
      rw [solveBB_pop_none oracle Qo Po Ro (gapTest gaptol) fuel s hpop]
        at hrun
      simp at hrun
    | some p =>
      obtain ⟨node, rest⟩ := p
      have hnode : NodeOK n node := hq node (popMin_mem hpop)
      have hrest : QueueOK n { s with active := rest, lb := node.obj } :=
        fun x hx => hq x (popMin_rest_subset hpop x hx)
      cases hstop : gapTest gaptol node.obj s.ub with
      | true =>
        rw [solveBB_stop oracle Qo Po Ro (gapTest gaptol) fuel s node rest
          hpop hstop] at hrun
        have hs' : s' = { s with active := [], lb := node.obj } :=
          (congrArg Prod.fst hrun).symm
        subst hs'
        have hle : s.ub - gaptol ≤ node.obj := of_decide_eq_true hstop
        exact ⟨rfl, hle, by simp; linarith, hst.1, hst.2.2⟩
      | false =>
        by_cases hdim : node.P.length ≤ 1
        · rw [solveBB_terminal oracle Qo Po Ro (gapTest gaptol) fuel s node
            rest hpop hstop hdim] at hrun
          exact ih { s with active := rest, lb := node.obj } s' hst hrest
            hrun
        · rw [solveBB_expand oracle Qo Po Ro (gapTest gaptol) fuel s node
            rest hpop hstop hdim] at hrun
          exact ih (expandNode oracle Qo Po Ro node
              { s with active := rest, lb := node.obj }) s'
            (expandNode_StInv n oracle Qo Po Ro node _ hfr hnode
              (by omega) hst)
            (expandNode_queueOK n oracle Qo Po Ro node _ hpiv hnode
              (by omega) hrest) hrun

/-- Witness for C2: a concrete run that exits via the gap check on its
first pop, with the incumbent invariant holding initially. -/
theorem binquad_C2_witness :
    StInv 2 [[0, 0], [0, 0]] [0, 5] 0
      ⟨[⟨5, 0, [[0]], [0], 0, [0, 0], [1], 0⟩], 0, 5, [0, 1], 1⟩ ∧
    QueueOK 2 ⟨[⟨5, 0, [[0]], [0], 0, [0, 0], [1], 0⟩], 0, 5, [0, 1], 1⟩ ∧
    solveBB (fun _ _ _ _ _ => none) [[0, 0], [0, 0]] [0, 5] 0 (gapTest 1) 1
      ⟨[⟨5, 0, [[0]], [0], 0, [0, 0], [1], 0⟩], 0, 5, [0, 1], 1⟩ =
      (⟨[], 5, 5, [0, 1], 1⟩, .gapExit) ∧
    ((⟨[], 5, 5, [0, 1], 1⟩ : BB).active = [] ∧
      (⟨[], 5, 5, [0, 1], 1⟩ : BB).ub - 1 ≤ (⟨[], 5, 5, [0, 1], 1⟩ : BB).lb ∧
      (⟨[], 5, 5, [0, 1], 1⟩ : BB).ub - (⟨[], 5, 5, [0, 1], 1⟩ : BB).lb ≤ 1 ∧
      FeasibleVec (⟨[], 5, 5, [0, 1], 1⟩ : BB).incumbent ∧
      objective [[0, 0], [0, 0]] [0, 5] 0
        (⟨[], 5, 5, [0, 1], 1⟩ : BB).incumbent =
        (⟨[], 5, 5, [0, 1], 1⟩ : BB).ub) := by
  have hst : StInv 2 [[0, 0], [0, 0]] [0, 5] 0
      ⟨[⟨5, 0, [[0]], [0], 0, [0, 0], [1], 0⟩], 0, 5, [0, 1], 1⟩ := by
    refine ⟨?_, by decide, ?_⟩
    · intro t ht
      simp at ht
      rcases ht with h | h
      · exact Or.inl h
      · exact Or.inr h
    · show objective [[0, 0], [0, 0]] [0, 5] 0 [0, 1] = 5
      norm_num [objective, quadForm, dotVec]
  have hq : QueueOK 2
      ⟨[⟨5, 0, [[0]], [0], 0, [0, 0], [1], 0⟩], 0, 5, [0, 1], 1⟩ := by
    decide
  have hrun : solveBB (fun _ _ _ _ _ => none) [[0, 0], [0, 0]] [0, 5] 0
      (gapTest 1) 1
      ⟨[⟨5, 0, [[0]], [0], 0, [0, 0], [1], 0⟩], 0, 5, [0, 1], 1⟩ =
      (⟨[], 5, 5, [0, 1], 1⟩, .gapExit) := by
    norm_num [solveBB, popMin, gapTest]
  refine ⟨hst, hq, hrun, ?_⟩
  exact (binquad_C2 2 (fun _ _ _ _ _ => none) [[0, 0], [0, 0]] [0, 5] 0 1
    (fun Q P R c im r h => by simp at h)
    (fun Q P R c im r h => by simp at h)).2 1
    ⟨[⟨5, 0, [[0]], [0], 0, [0, 0], [1], 0⟩], 0, 5, [0, 1], 1⟩
    ⟨[], 5, 5, [0, 1], 1⟩ hst hq hrun

/-! ## Claim C4: integrality and termination -/

theorem isInt_intCast (z : ℤ) : IsInt (z : ℚ) := Rat.den_intCast z

theorem isInt_exists {q : ℚ} (h : IsInt q) : ∃ z : ℤ, q = (z : ℚ) :=
  ⟨q.num, (Rat.coe_int_num_of_den_eq_one h).symm⟩

theorem isInt_zero : IsInt 0 := rfl

theorem isInt_one : IsInt 1 := rfl

theorem isInt_add {a b : ℚ} (ha : IsInt a) (hb : IsInt b) :
    IsInt (a + b) := by
  obtain ⟨za, hza⟩ := isInt_exists ha
  obtain ⟨zb, hzb⟩ := isInt_exists hb
  subst hza; subst hzb
  have : (za : ℚ) + (zb : ℚ) = ((za + zb : ℤ) : ℚ) := by push_cast; ring
  rw [this]
  exact isInt_intCast _

theorem isInt_mul {a b : ℚ} (ha : IsInt a) (hb : IsInt b) :
    IsInt (a * b) := by
  obtain ⟨za, hza⟩ := isInt_exists ha
  obtain ⟨zb, hzb⟩ := isInt_exists hb
  subst hza; subst hzb
  have : (za : ℚ) * (zb : ℚ) = ((za * zb : ℤ) : ℚ) := by push_cast; ring
  rw [this]
  exact isInt_intCast _

theorem isInt_dotVec : ∀ (a b : Vec), (∀ q ∈ a, IsInt q) →
    (∀ q ∈ b, IsInt q) → IsInt (dotVec a b) := by
  intro a
  induction a with
  | nil => intro b _ _; exact isInt_zero
  | cons x xs ih =>
    intro b ha hb
    cases b with
    | nil => exact isInt_zero
    | cons y ys =>
      have hstep : dotVec (x :: xs) (y :: ys) = x * y + dotVec xs ys := by
        simp [dotVec]
      rw [hstep]
      exact isInt_add
        (isInt_mul (ha x (List.mem_cons_self _ _))
          (hb y (List.mem_cons_self _ _)))
        (ih ys (fun q hq => ha q (List.mem_cons_of_mem _ hq))
          (fun q hq => hb q (List.mem_cons_of_mem _ hq)))

theorem isInt_quadAux (x : Vec) : ∀ (xs : List ℚ) (Qs : Mat),
    (∀ q ∈ xs, IsInt q) → (∀ row ∈ Qs, IsInt (dotVec row x)) →
    IsInt ((List.zipWith (fun xi row => xi * dotVec row x) xs Qs).sum) := by
  intro xs
  induction xs with
  | nil => intro Qs _ _; exact isInt_zero
  | cons a as ih =>
    intro Qs ha hQs
    cases Qs with
    | nil => exact isInt_zero
    | cons r rs =>
      have hstep : (List.zipWith (fun xi row => xi * dotVec row x) (a :: as)
          (r :: rs)).sum =
          a * dotVec r x +
            (List.zipWith (fun xi row => xi * dotVec row x) as rs).sum := by
        simp
      rw [hstep]
      exact isInt_add
        (isInt_mul (ha a (List.mem_cons_self _ _))
          (hQs r (List.mem_cons_self _ _)))
        (ih rs (fun q hq => ha q (List.mem_cons_of_mem _ hq))
          (fun row hr => hQs row (List.mem_cons_of_mem _ hr)))

theorem feasible_isInt {x : Vec} (hx : FeasibleVec x) :
    ∀ q ∈ x, IsInt q := by
  intro q hq
  rcases hx q hq with h | h
  · rw [h]; exact isInt_zero
  · rw [h]; exact isInt_one

theorem isInt_objective {Q : Mat} {P : Vec} {R : ℚ} {x : Vec}
    (hQ : IntMat Q) (hP : IntVec P) (hR : IsInt R) (hx : FeasibleVec x) :
    IsInt (objective Q P R x) := by
  have hxi := feasible_isInt hx
  refine isInt_add (isInt_add ?_ ?_) hR
  · exact isInt_quadAux x x Q hxi
      (fun row hr => isInt_dotVec row x (hQ row hr) hxi)
  · exact isInt_dotVec P x hP hxi

theorem foldl_min_le_init (l : List ℚ) : ∀ a : ℚ, l.foldl min a ≤ a := by
  induction l with
  | nil => intro a; exact le_refl a
  | cons b t ih =>
    intro a
    calc (b :: t).foldl min a = t.foldl min (min a b) := rfl
      _ ≤ min a b := ih _
      _ ≤ a := min_le_left _ _

theorem foldl_min_le : ∀ (t : List ℚ) (a x : ℚ), x ∈ a :: t →
    t.foldl min a ≤ x := by
  intro t
  induction t with
  | nil =>
    intro a x hx
    simp at hx
    rw [hx]
    exact le_refl a
  | cons b t' ih =>
    intro a x hx
    rcases List.mem_cons.mp hx with hx | hx
    · rw [hx]
      calc (b :: t').foldl min a = t'.foldl min (min a b) := rfl
        _ ≤ min a b := foldl_min_le_init _ _
        _ ≤ a := min_le_left _ _
    · rcases List.mem_cons.mp hx with hx1 | hx1
      · rw [hx1]
        calc (b :: t').foldl min a = t'.foldl min (min a b) := rfl
          _ ≤ min a b := foldl_min_le_init _ _
          _ ≤ b := min_le_right _ _
      · exact ih (min a b) x (List.mem_cons_of_mem _ hx1)

theorem minList_le (l : List ℚ) (x : ℚ) (hx : x ∈ l) : minList l ≤ x := by
  cases l with
  | nil => simp at hx
  | cons a t => exact foldl_min_le t a x hx

theorem foldl_min_mem : ∀ (t : List ℚ) (a : ℚ), t.foldl min a ∈ a :: t := by
  intro t
  induction t with
  | nil => intro a; simp
  | cons b t' ih =>
    intro a
    have := ih (min a b)
    rcases List.mem_cons.mp this with h | h
    · rcases min_choice a b with hc | hc
      · rw [show (b :: t').foldl min a = t'.foldl min (min a b) from rfl, h,
          hc]
        exact List.mem_cons_self _ _
      · rw [show (b :: t').foldl min a = t'.foldl min (min a b) from rfl, h,
          hc]
        exact List.mem_cons_of_mem _ (List.mem_cons_self _ _)
    · rw [show (b :: t').foldl min a = t'.foldl min (min a b) from rfl]
      exact List.mem_cons_of_mem _ (List.mem_cons_of_mem _ h)

theorem minList_mem (l : List ℚ) (h : l ≠ []) : minList l ∈ l := by
  cases l with
  | nil => exact absurd rfl h
  | cons a t => exact foldl_min_mem t a

theorem mem_binVecs : ∀ (n : ℕ) (x : Vec),
    x ∈ binVecs n ↔ x.length = n ∧ FeasibleVec x := by
  intro n
  induction n with
  | zero =>
    intro x
    constructor
    · intro hx
      simp [binVecs] at hx
      subst hx
      exact ⟨rfl, fun t ht => by simp at ht⟩
    · intro ⟨hl, _⟩
      rw [List.length_eq_zero] at hl
      subst hl
      simp [binVecs]
  | succ n ih =>
    intro x
    constructor
    · intro hx
      simp only [binVecs, List.mem_append, List.mem_map] at hx
      rcases hx with ⟨t, ht, hte⟩ | ⟨t, ht, hte⟩ <;> subst hte
      · obtain ⟨hl, hf⟩ := (ih t).mp ht
        refine ⟨by simp [hl], ?_⟩
        intro q hq
        rcases List.mem_cons.mp hq with h | h
        · exact Or.inl h
        · exact hf q h
      · obtain ⟨hl, hf⟩ := (ih t).mp ht
        refine ⟨by simp [hl], ?_⟩
        intro q hq
        rcases List.mem_cons.mp hq with h | h
        · exact Or.inr h
        · exact hf q h
    · intro ⟨hl, hf⟩
      cases x with
      | nil => simp at hl
      | cons c t =>
        have hlt : t.length = n := by simpa using hl
        have hft : FeasibleVec t := fun q hq =>
          hf q (List.mem_cons_of_mem _ hq)
        have htm : t ∈ binVecs n := (ih t).mpr ⟨hlt, hft⟩
        rcases hf c (List.mem_cons_self _ _) with hc | hc <;> subst hc
        · simp only [binVecs, List.mem_append, List.mem_map]
          exact Or.inl ⟨t, htm, rfl⟩
        · simp only [binVecs, List.mem_append, List.mem_map]
          exact Or.inr ⟨t, htm, rfl⟩

theorem binVecs_ne_nil : ∀ n : ℕ, binVecs n ≠ [] := by
  intro n
  induction n with
  | zero => simp [binVecs]
  | succ n ih =>
    simp only [binVecs]
    intro hc
    rcases List.append_eq_nil.mp hc with ⟨h1, _⟩
    exact ih (List.map_eq_nil_iff.mp h1)

theorem bruteMin_le (Q : Mat) (P : Vec) (R : ℚ) (n : ℕ) (x : Vec)
    (hxl : x.length = n) (hxf : FeasibleVec x) :
    bruteMin Q P R n ≤ objective Q P R x := by
  refine minList_le _ _ ?_
  exact List.mem_map.mpr ⟨x, (mem_binVecs n x).mpr ⟨hxl, hxf⟩, rfl⟩

theorem bruteMin_isInt (Q : Mat) (P : Vec) (R : ℚ) (n : ℕ)
    (hQ : IntMat Q) (hP : IntVec P) (hR : IsInt R) :
    IsInt (bruteMin Q P R n) := by
  have hne : (binVecs n).map (objective Q P R) ≠ [] := by
    intro hc
    exact binVecs_ne_nil n (List.map_eq_nil_iff.mp hc)
  have hmem := minList_mem _ hne
  obtain ⟨x, hx, hxe⟩ := List.mem_map.mp hmem
  obtain ⟨_, hxf⟩ := (mem_binVecs n x).mp hx
  rw [show bruteMin Q P R n = minList ((binVecs n).map (objective Q P R))
    from rfl, ← hxe]
  exact isInt_objective hQ hP hR hxf

theorem solveBB_gapExit_test (oracle : Oracle) (Qo : Mat) (Po : Vec)
    (Ro : ℚ) (tstop : ℚ → ℚ → Bool) : ∀ (fuel : ℕ) (s s' : BB),
    solveBB oracle Qo Po Ro tstop fuel s = (s', .gapExit) →
    tstop s'.lb s'.ub = true ∧ s'.active = [] := by
  intro fuel
  induction fuel with
  | zero =>
    intro s s' h
    rw [solveBB_zero] at h
    simp at h
  | succ fuel ih =>
    intro s s' h
    cases hpop : popMin s.active with
    | none =>
      rw [solveBB_pop_none oracle Qo Po Ro tstop fuel s hpop] at h
      simp at h
    | some p =>
      obtain ⟨node, rest⟩ := p
      cases hstop : tstop node.obj s.ub with
      | true =>
        rw [solveBB_stop oracle Qo Po Ro tstop fuel s node rest hpop
          hstop] at h
        have hs' : s' = { s with active := [], lb := node.obj } :=
          (congrArg Prod.fst h).symm
        subst hs'
        exact ⟨hstop, rfl⟩
      | false =>
        by_cases hdim : node.P.length ≤ 1
        · rw [solveBB_terminal oracle Qo Po Ro tstop fuel s node rest hpop
            hstop hdim] at h
          exact ih _ s' h
        · rw [solveBB_expand oracle Qo Po Ro tstop fuel s node rest hpop
            hstop hdim] at h
          exact ih _ s' h

theorem meas_pop (s : BB) (node : Node) (rest : List Node)
    (hpop : popMin s.active = some (node, rest)) :
    meas s = nodeMeas node + (rest.map nodeMeas).sum := by
  unfold meas
  rw [((popMin_perm hpop).map nodeMeas).sum_eq]
  simp

theorem expandOne_meas (oracle : Oracle) (Qo : Mat) (Po : Vec) (Ro : ℚ)
    (node : Node) (val : ℚ) (s : BB)
    (hQ : node.Q.length = node.P.length)
    (hp : node.pivot < node.P.length) :
    meas (expandOne oracle Qo Po Ro node val s) ≤
      meas s + 3 ^ (node.P.length - 1) := by
  cases hc : callOracle oracle (makeChild node val) with
  | none =>
    rw [expandOne_fail oracle Qo Po Ro node val s hc]
    exact Nat.le_add_right _ _
  | some r =>
    rw [expandOne_succ oracle Qo Po Ro node val s r hc]
    show ((((updateIncumbent _ _ _ _ _).active) ++
      [childNode node val r (s.relSolved + 1)]).map nodeMeas).sum ≤ _
    rw [updateIncumbent_active, List.map_append, List.sum_append]
    have hcm : nodeMeas (childNode node val r (s.relSolved + 1)) =
        3 ^ (node.P.length - 1) := by
      unfold nodeMeas
      show 3 ^ (makeChild node val).P.length = _
      rw [makeChild_P_length node val hQ hp]
    simp [hcm, meas]

theorem expandNode_meas (oracle : Oracle) (Qo : Mat) (Po : Vec) (Ro : ℚ)
    (node : Node) (s : BB) (hQ : node.Q.length = node.P.length)
    (hp : node.pivot < node.P.length) :
    meas (expandNode oracle Qo Po Ro node s) ≤
      meas s + 2 * 3 ^ (node.P.length - 1) := by
  unfold expandNode
  calc meas (expandOne oracle Qo Po Ro node 1
        (expandOne oracle Qo Po Ro node 0 s)) ≤
      meas (expandOne oracle Qo Po Ro node 0 s) + 3 ^ (node.P.length - 1) :=
        expandOne_meas oracle Qo Po Ro node 1 _ hQ hp
    _ ≤ meas s + 3 ^ (node.P.length - 1) + 3 ^ (node.P.length - 1) :=
        Nat.add_le_add_right (expandOne_meas oracle Qo Po Ro node 0 s hQ hp)
          _
    _ = meas s + 2 * 3 ^ (node.P.length - 1) := by ring

theorem solveBB_terminates (n : ℕ) (oracle : Oracle) (Qo : Mat) (Po : Vec)
    (Ro : ℚ) (tstop : ℚ → ℚ → Bool) (hpiv : OraclePivotLt oracle) :
    ∀ (fuel : ℕ) (s : BB), QueueOK n s → meas s < fuel →
      (solveBB oracle Qo Po Ro tstop fuel s).2 ≠ .fuelOut := by
  intro fuel
  induction fuel with
  | zero => intro s _ hm; omega
  | succ fuel ih =>
    intro s hq hm
    cases hpop : popMin s.active with
    | none =>
      rw [solveBB_pop_none oracle Qo Po Ro tstop fuel s hpop]
      simp
    | some p =>
      obtain ⟨node, rest⟩ := p
      have hnode : NodeOK n node := hq node (popMin_mem hpop)
      have hrest : QueueOK n { s with active := rest, lb := node.obj } :=
        fun x hx => hq x (popMin_rest_subset hpop x hx)
      have hmeq : meas s = nodeMeas node + (rest.map nodeMeas).sum :=
        meas_pop s node rest hpop
      have hpos : 0 < nodeMeas node := Nat.pos_pow_of_pos _ (by omega)
      cases hstop : tstop node.obj s.ub with
      | true =>
        rw [solveBB_stop oracle Qo Po Ro tstop fuel s node rest hpop hstop]
        simp
      | false =>
        by_cases hdim : node.P.length ≤ 1
        · rw [solveBB_terminal oracle Qo Po Ro tstop fuel s node rest hpop
            hstop hdim]
          refine ih _ hrest ?_
          have : meas { s with active := rest, lb := node.obj } =
              (rest.map nodeMeas).sum := rfl
          omega
        · rw [solveBB_expand oracle Qo Po Ro tstop fuel s node rest hpop
            hstop hdim]
          have hp : node.pivot < node.P.length := by
            rcases hnode.2.2.2.2.2.2.2 with h | h
            · exact h
            · omega
          refine ih _ (expandNode_queueOK n oracle Qo Po Ro node _ hpiv
            hnode (by omega) hrest) ?_
          have hexp := expandNode_meas oracle Qo Po Ro node
            { s with active := rest, lb := node.obj } hnode.2.2.2.1 hp
          have hrm : meas { s with active := rest, lb := node.obj } =
              (rest.map nodeMeas).sum := rfl
          have h3 : nodeMeas node = 3 ^ (node.P.length - 1) * 3 := by
            unfold nodeMeas
            have hd1 : node.P.length = node.P.length - 1 + 1 := by omega
            conv_lhs => rw [hd1]
            rw [pow_succ]
          have h3pos : 0 < 3 ^ (node.P.length - 1) :=
            Nat.pos_pow_of_pos _ (by omega)
          omega

/-- C4.  Integer-rounded termination: with all-integral Q, P, R and the
ceiling-based test, (a) whenever the loop stops because
ceil(lower_bound) >= upper_bound, with lower_bound a valid lower bound on
the optimum and upper_bound achieved by a feasible 0/1 assignment, the
returned value upper_bound equals the exact integral optimum
min over x in {0,1}^n of the objective; and (b) the loop terminates after
finitely many iterations: any fuel beyond the queue measure never runs
out. -/
theorem binquad_C4 (n : ℕ) (oracle : Oracle) (Qo : Mat) (Po : Vec) (Ro : ℚ)
    (hpiv : OraclePivotLt oracle) (hQ : IntMat Qo) (hP : IntVec Po)
    (hR : IsInt Ro) :
    (∀ (fuel : ℕ) (s s' : BB),
      solveBB oracle Qo Po Ro ceilTest fuel s = (s', .gapExit) →
      s'.lb ≤ bruteMin Qo Po Ro n →
      (∃ x : Vec, x.length = n ∧ FeasibleVec x ∧
        objective Qo Po Ro x = s'.ub) →
      s'.ub = bruteMin Qo Po Ro n) ∧
    (∀ (fuel : ℕ) (s : BB), QueueOK n s → meas s < fuel →
      (solveBB oracle Qo Po Ro ceilTest fuel s).2 ≠ .fuelOut) := by
  constructor
  · intro fuel s s' hrun hlb hub
    obtain ⟨htest, -⟩ :=
      solveBB_gapExit_test oracle Qo Po Ro ceilTest fuel s s' hrun
    have hub_le : s'.ub ≤ (⌈s'.lb⌉ : ℚ) := of_decide_eq_true htest
    obtain ⟨x, hxl, hxf, hxo⟩ := hub
    have hopt_le : bruteMin Qo Po Ro n ≤ s'.ub := by
      rw [← hxo]
      exact bruteMin_le Qo Po Ro n x hxl hxf
    obtain ⟨z, hz⟩ := isInt_exists (bruteMin_isInt Qo Po Ro n hQ hP hR)
    have hceil : ⌈s'.lb⌉ ≤ z := by
      have h1 : ⌈s'.lb⌉ ≤ ⌈(z : ℚ)⌉ := by
        refine Int.ceil_le_ceil ?_
        rw [← hz]
        exact hlb
      rwa [Int.ceil_intCast] at h1
    have hub_opt : s'.ub ≤ bruteMin Qo Po Ro n := by
      refine le_trans hub_le ?_
      rw [hz]
      exact_mod_cast hceil
    exact le_antisymm hub_opt hopt_le
  · exact solveBB_terminates n oracle Qo Po Ro ceilTest hpiv

/-- Witness for C4: a one-pop run on integral data that stops because
ceil(-1/2) = 0 >= upper_bound = 0, returning the brute-force optimum 0. -/
theorem binquad_C4_witness :
    IntMat [[0, 0], [0, 0]] ∧ IntVec [0, 5] ∧ IsInt 0 ∧
    solveBB (fun _ _ _ _ _ => none) [[0, 0], [0, 0]] [0, 5] 0 ceilTest 1
      ⟨[⟨-1/2, 0, [[0]], [0], 0, [0, 0], [1], 0⟩], 0, 0, [0, 0], 1⟩ =
      (⟨[], -1/2, 0, [0, 0], 1⟩, .gapExit) ∧
    ((⟨[], -1/2, 0, [0, 0], 1⟩ : BB).lb ≤ bruteMin [[0, 0], [0, 0]] [0, 5] 0 2) ∧
    (⟨[], -1/2, 0, [0, 0], 1⟩ : BB).ub = bruteMin [[0, 0], [0, 0]] [0, 5] 0 2 := by
  have hrun : solveBB (fun _ _ _ _ _ => none) [[0, 0], [0, 0]] [0, 5] 0
      ceilTest 1
      ⟨[⟨-1/2, 0, [[0]], [0], 0, [0, 0], [1], 0⟩], 0, 0, [0, 0], 1⟩ =
      (⟨[], -1/2, 0, [0, 0], 1⟩, .gapExit) := by
    norm_num [solveBB, popMin, ceilTest]
    intro h
    have h1 : ⌈(-(1/2) : ℚ)⌉ ≤ -1 := by omega
    have h2 : (-(1/2) : ℚ) ≤ ((-1 : ℤ) : ℚ) := Int.ceil_le.mp h1
    norm_num at h2
  have hlb : ((⟨[], -1/2, 0, [0, 0], 1⟩ : BB)).lb ≤
      bruteMin [[0, 0], [0, 0]] [0, 5] 0 2 := by
    show (-1/2 : ℚ) ≤ _
    norm_num [bruteMin, binVecs, minList, objective, quadForm, dotVec]
  refine ⟨by decide, by decide, by decide, hrun, hlb, ?_⟩
  refine (binquad_C4 2 (fun _ _ _ _ _ => none) [[0, 0], [0, 0]] [0, 5] 0
    (fun Q P R c im r h => by simp at h) (by decide) (by decide)
    (by decide)).1 1
    ⟨[⟨-1/2, 0, [[0]], [0], 0, [0, 0], [1], 0⟩], 0, 0, [0, 0], 1⟩
    ⟨[], -1/2, 0, [0, 0], 1⟩ hrun hlb
    ⟨[0, 0], rfl, by decide, ?_⟩
  show objective [[0, 0], [0, 0]] [0, 5] 0 [0, 0] = 0
  norm_num [objective, quadForm, dotVec]

end BinQuad
